import Mathlib

/-!
Verification of the jcemUI repository core: the arbitrary-base numeral
converter (src/scripts/base.ts) and the hook-based virtual-module injection
engine (the two plugin implementations).  TypeScript strings are modelled as
lists of characters; JS `BigInt` arithmetic is modelled by `Nat` (all the
numbers involved are non-negative); fallible code returns `Except`.
-/

/-- A TypeScript string, modelled as its list of characters. -/
abbrev Str := List Char

namespace BaseTs

/-!  Embedding of `src/scripts/base.ts`. -/

/-- An alphabet argument of `convertBase`: a JS string (spread into its
characters), a JS array of characters, or any other JS value (neither a
string nor an array). -/
inductive BaseArg where
  | str (s : Str)
  | arr (a : Str)
  | other
deriving DecidableEq

/-- The failure modes of `convertBase`: the `TypeError` thrown by
`normalizeBase`, the two duplicate-symbol `Error`s, and the
out-of-alphabet-character `Error`. -/
inductive ConvError where
  | typeErr
  | dupFrom
  | dupTo
  | badChar (c : Char)
deriving DecidableEq

/-- `normalizeBase` from base.ts: a string becomes its character array, an
array is copied as is, anything else throws a `TypeError`. -/
def normalizeBase : BaseArg → Except ConvError Str
  | .str s => .ok s
  | .arr a => .ok a
  | .other => .error .typeErr

/-- `hasDuplicates` from base.ts: `new Set(arr).size !== arr.length`.
The size of the JS `Set` built from a list is the number of distinct
elements, i.e. the length of `List.dedup`. -/
def hasDuplicates (l : Str) : Bool := l.dedup.length != l.length

/-- The accumulation loop of `convertBase`:
`num = num * BigInt(fromBase) + BigInt(fromMap.get(ch))` over the value.
`fromMap.get ch` is the index of the first occurrence of `ch`. -/
def accumulate (fromSymbols : Str) (value : Str) : Nat :=
  value.foldl (fun acc c => acc * fromSymbols.length + fromSymbols.indexOf c) 0

/-- The digit-emission loop of `convertBase`, as the little-endian list of
remainders.  For a base smaller than 2 with a positive value the JS `while`
loop never terminates (the quotient does not decrease); that case is mapped
to `[]` here and every theorem below stays inside the terminating domain. -/
def emitDigits (toBase : Nat) (n : Nat) : List Nat :=
  if h : 2 ≤ toBase then
    if hn : n = 0 then []
    else n % toBase :: emitDigits toBase (n / toBase)
  else []
termination_by n
decreasing_by exact Nat.div_lt_self (Nat.pos_of_ne_zero hn) h

/-- `convertBase` from base.ts.  Both alphabets are normalized, both are
checked for duplicates (source first), every character of the value must
belong to the source alphabet (the first offender is reported), the value is
accumulated into an unbounded integer, and the result is either the first
destination symbol (for zero; JS returns `toSymbols[0]`, a single symbol
whenever the destination alphabet is non-empty) or the big-endian digit
string in the destination alphabet. -/
def convertBase (value : Str) (fromBaseSymbols toBaseSymbols : BaseArg) :
    Except ConvError Str :=
  match normalizeBase fromBaseSymbols with
  | .error e => .error e
  | .ok fromSymbols =>
    match normalizeBase toBaseSymbols with
    | .error e => .error e
    | .ok toSymbols =>
      if hasDuplicates fromSymbols then .error .dupFrom
      else if hasDuplicates toSymbols then .error .dupTo
      else
        match value.find? (fun c => !(fromSymbols.contains c)) with
        | some c => .error (.badChar c)
        | none =>
          let num := accumulate fromSymbols value
          if num = 0 then .ok (toSymbols.take 1)
          else .ok (((emitDigits toSymbols.length num).reverse).map
              (fun d => toSymbols.getD d 'A'))

/-- Leading-zero-symbol normalization of a value over alphabet `A`: drop
leading copies of the first symbol; an all-zero (or empty) value normalizes
to the single first symbol. -/
def stripLeadingZeros (A : Str) (v : Str) : Str :=
  match v.dropWhile (fun c => c == A.headI) with
  | [] => A.take 1
  | s => s

end BaseTs


namespace Plugin

/-!
Shared model for the two plugin implementations (the simpler file and the
fuller file).  It embeds the Node `path` POSIX functions the sources call,
the regular expressions as executable testers/matchers, and the hook data
model.  The ambient `process.cwd()` is passed explicitly as `cwd`.
-/

/-- `s.replace(/\\/g, '/')`. -/
def slashify (s : Str) : Str := s.map (fun c => if c = '\\' then '/' else c)

/-- `path.isAbsolute` (POSIX): the path starts with a separator. -/
def pathIsAbsolute (p : Str) : Bool := p.head? == some '/'

/-- Split a path on the POSIX separator. -/
def splitSlash : Str → List Str
  | [] => [[]]
  | c :: t =>
    if c = '/' then [] :: splitSlash t
    else
      match splitSlash t with
      | s :: rest => (c :: s) :: rest
      | [] => [[c]]

/-- One step of Node's `normalizeString` stack: empty and `.` segments are
skipped, `..` pops a previous real segment, stays above the root only for
relative paths, and other segments are pushed. -/
def normStep (allowAbove : Bool) (acc : List Str) (seg : Str) : List Str :=
  if seg = [] ∨ seg = ['.'] then acc
  else if seg = ['.', '.'] then
    if acc ≠ [] ∧ acc.getLast? ≠ some ['.', '.'] then acc.dropLast
    else if allowAbove then acc ++ [seg]
    else acc
  else acc ++ [seg]

def normSegs (allowAbove : Bool) (segs : List Str) : List Str :=
  segs.foldl (normStep allowAbove) []

def joinSegs (segs : List Str) : Str := (segs.intersperse ['/']).flatten

/-- `path.posix.normalize`. -/
def pathNormalize (p : Str) : Str :=
  if p = [] then ['.']
  else
    let isAbs := pathIsAbsolute p
    let trail := p.getLast? == some '/'
    let body := joinSegs (normSegs (!isAbs) (splitSlash p))
    if body = [] then
      (if isAbs then ['/'] else if trail then ['.', '/'] else ['.'])
    else
      (if isAbs then '/' :: body else body) ++ (if trail then ['/'] else [])

/-- `path.resolve(a, b)` with ambient absolute working directory `cwd`:
rightmost absolute component wins, `cwd` is prepended when neither is
absolute, and the result is root-normalized. -/
def pathResolve (cwd a b : Str) : Str :=
  let joined :=
    if pathIsAbsolute b then b
    else if pathIsAbsolute a then a ++ '/' :: b
    else cwd ++ '/' :: (a ++ '/' :: b)
  '/' :: joinSegs (normSegs false (splitSlash joined))

/-- Drop the common leading segments of two segment lists. -/
def dropCommon : List Str → List Str → (List Str × List Str)
  | a :: as, b :: bs => if a = b then dropCommon as bs else (a :: as, b :: bs)
  | as, bs => (as, bs)

/-- `path.relative(f, t)` with ambient working directory `cwd`: both sides
resolved, common prefix dropped, remaining `f` segments turned into `..`.
(Only reached through the dead branch of the fuller file's `GEN_ID`.) -/
def pathRelative (cwd f t : Str) : Str :=
  let fs := normSegs false (splitSlash (pathResolve cwd [] f))
  let ts := normSegs false (splitSlash (pathResolve cwd [] t))
  let pair := dropCommon fs ts
  joinSegs (pair.1.map (fun _ => ['.', '.']) ++ pair.2)

/-- `path.posix.dirname`. -/
def pathDirname (p : Str) : Str :=
  let r1 := (p.reverse).dropWhile (fun c => c == '/')
  let rest := r1.dropWhile (fun c => c != '/')
  match rest with
  | [] => if pathIsAbsolute p then ['/'] else ['.']
  | _ :: t => if t = [] then ['/'] else t.reverse

/-- `path.posix.extname`: the final dot extension of the basename; a name
whose only dot is its first character has no extension. -/
def pathExtname (p : Str) : Str :=
  let revBase := (p.reverse).takeWhile (fun c => c != '/')
  let pre := revBase.takeWhile (fun c => c != '.')
  if pre.length = revBase.length then []
  else if pre.length + 1 = revBase.length then []
  else '.' :: pre.reverse

/-- The characters of the JS regex class `\s` (ASCII range; the sources
never meet the Unicode space characters). -/
def isWS (c : Char) : Bool :=
  c == ' ' || c == '\t' || c == '\n' || c == '\r' || c == '\x0b' || c == '\x0c'

def dropWS (s : Str) : Str := s.dropWhile isWS

def lowerStr (s : Str) : Str := s.map Char.toLower

/-- Case-insensitive literal prefix stripping (JS `i` flag). -/
def stripPrefCI : Str → Str → Option Str
  | [], s => some s
  | _, [] => none
  | p :: ps, c :: cs => if p.toLower = c.toLower then stripPrefCI ps cs else none

/-- The single-quote character. -/
def squote : Char := Char.ofNat 39

/-- `__INJECTIONHOOKS_REGEX = /^\s*@InjectionHooks_ts:/i`, defined
identically in both plugin files. -/
def injectionHooksTest (s : Str) : Bool :=
  (stripPrefCI ("@injectionhooks_ts:".toList) (dropWS s)).isSome

/-- The test of `/\s*[^:\s@]:(\/\/)?/i` searched anywhere in the string:
some character that is neither whitespace, `:` nor `@`, immediately
followed by `:` (the `\s*` and the optional `//` do not constrain an
unanchored search). -/
def colonSchemeTest : Str → Bool
  | a :: b :: rest =>
    (!isWS a && a != ':' && a != '@' && b == ':') || colonSchemeTest (b :: rest)
  | _ => false

/-- One attempt of `REGEX_START_RELATIVE_PATH =
/(^|\n)\s*(\.{1,2}(\/|\\)|[^\s\.\/\\])/` at a line start: skip whitespace,
then one or two dots followed by a slash or backslash, or one character
that is none of whitespace, dot, slash, backslash. -/
def relStartCore (s : Str) : Bool :=
  match dropWS s with
  | [] => false
  | '.' :: rest =>
    match rest with
    | '.' :: rest2 =>
      match rest2 with
      | c :: _ => c == '/' || c == '\\'
      | [] => false
    | c :: _ => c == '/' || c == '\\'
    | [] => false
  | c :: _ => !(c == '.' || c == '/' || c == '\\')

def relStartGo : Str → Bool
  | [] => false
  | c :: t => (c == '\n' && relStartCore t) || relStartGo t

/-- `REGEX_START_RELATIVE_PATH.test`: an attempt at position 0 (`^`) or
after any newline. -/
def relStartTest (s : Str) : Bool := relStartCore s || relStartGo s

/-- `TISMATCH`: a RegExp (modelled by its test function) or a predicate
function. -/
inductive TISMATCH where
  | regex (test : Str → Bool)
  | func (f : Str → Bool)

/-- `IInjectionHook`.  The zero-argument `getContent` producer is modelled
by the (deterministic) string it returns for the current snapshot. -/
structure IInjectionHook where
  filePath : Str
  isMatch : Option TISMATCH
  getContent : Str

/-- `isMatch` from the plugin files: RegExp test, function call, or `false`
when the hook object carries no `isMatch` property. -/
def isMatchT : TISMATCH → Str → Bool
  | .regex t, p => t p
  | .func f, p => f p

def isMatchHook (h : IInjectionHook) (p : Str) : Bool :=
  match h.isMatch with
  | some t => isMatchT t p
  | none => false

/-- A JS `Record` of hooks: its insertion-ordered key/value list. -/
abbrev HookReg := List (Str × IInjectionHook)

/-- JS `obj[k] = v`: overwrite in place, or append a new key. -/
def recordSet (reg : HookReg) (k : Str) (v : IInjectionHook) : HookReg :=
  if reg.any (fun e => e.1 == k) then
    reg.map (fun e => if e.1 == k then (k, v) else e)
  else reg ++ [(k, v)]

/-- `getCommentSyntax` from the plugin files (under a shortened name):
comment start/end tokens chosen by the lowercased file extension. -/
def getCommentStyle (filePath : Str) : Str × Str :=
  let extension := lowerStr (pathExtname filePath)
  if extension ∈ [ ".scss".toList, ".css".toList, ".ts".toList, ".tsx".toList,
      ".js".toList, ".jsx".toList] then ( "//".toList, [])
  else if extension ∈ [ ".html".toList, ".htm".toList] then
    ( "<!--".toList, "-->".toList)
  else if extension ∈ [ ".yaml".toList, ".yml".toList, ".toml".toList] then
    ( "#".toList, [])
  else ( "/*".toList, "*/".toList)

/-- `path.extname(p).substring(1)`: the `injectedLoader` metadata value. -/
def extLoader (p : Str) : Str := (pathExtname p).drop 1

/-- The backquote character (written by code point). -/
def bquote : Char := Char.ofNat 96

/-- The matcher body of the instantiated `INJECTION_BLOCK_REGEX`
`(\n|^)\s*CS\s*\x7bgenerate\-global\-css\-vars\.ts[^\n]+(\n|$)` after its
line-start group: whitespace, the comment-start token, whitespace, the
literal `\x7bgenerate-global-css-vars.ts`, at least one further
non-newline character, then a consumed newline or the end of input.
Returns the capture of the final `(\n|$)` group and the text after the
match. -/
def markerBody (cs : Str) (s : Str) : Option (Str × Str) :=
  match stripPrefCI cs (dropWS s) with
  | none => none
  | some r2 =>
    match stripPrefCI ("\x7bgenerate-global-css-vars.ts".toList) (dropWS r2) with
    | none => none
    | some r4 =>
      let line := r4.takeWhile (fun c => c != '\n')
      if line = [] then none
      else
        match r4.drop line.length with
        | '\n' :: r6 => some ([ '\n'], r6)
        | r5 => some ([], r5)

/-- Scan for a match whose `(\n|^)` group consumes an interior newline.
Returns the text before the match, the matched text, the two group
captures, and the text after the match. -/
def findMarkerGo (cs : Str) (acc : Str) : Str → Option (Str × Str × Str × Str × Str)
  | [] => none
  | c :: t =>
    if c = '\n' then
      match markerBody cs t with
      | some (g2, post) =>
        some (acc.reverse, '\n' :: t.take (t.length - post.length), [ '\n'], g2, post)
      | none => findMarkerGo cs (c :: acc) t
    else findMarkerGo cs (c :: acc) t

/-- Leftmost match of the instantiated injection-block regex, with the text
before the match, the matched text, the captures of groups 1 and 2, and
the text after the match.  At position 0 the `\n` alternative of group 1
is preferred when the text starts with a newline; otherwise the zero-width
`^` alternative applies (the match spans are identical either way, since
`\s*` would consume the same newline). -/
def findMarkerSplit (cs : Str) (s : Str) : Option (Str × Str × Str × Str × Str) :=
  match s with
  | '\n' :: t =>
    match markerBody cs t with
    | some (g2, post) =>
      some ([], '\n' :: t.take (t.length - post.length), [ '\n'], g2, post)
    | none => findMarkerGo cs [ '\n'] t
  | _ =>
    match markerBody cs s with
    | some (g2, post) => some ([], s.take (s.length - post.length), [], g2, post)
    | none => findMarkerGo cs [] s

/-- The scan loop of ECMAScript `GetSubstitution`: `$$` a literal dollar,
`$&` the matched text, the backquote form the text before the match, the
quote form the text after it, `$n`/`$nn` the n-th capture (the two-digit
reading preferred when in range, out-of-range sequences kept literal), and
a `$` before anything else literal.  The recursion is fueled, one unit per
scan step; each step consumes at least one character, so the fuel supplied
by `getSubstitution` never runs out and the fuel-exhausted arm is
unreachable. -/
def getSubstGo (matched before after : Str) (caps : List Str) : Nat → Str → Str
  | 0, s => s
  | _, [] => []
  | fuel + 1, '$' :: rest =>
    match rest with
    | [] => [ '$']
    | c :: rest2 =>
      if c = '$' then '$' :: getSubstGo matched before after caps fuel rest2
      else if c = '&' then
        matched ++ getSubstGo matched before after caps fuel rest2
      else if c = bquote then
        before ++ getSubstGo matched before after caps fuel rest2
      else if c = squote then
        after ++ getSubstGo matched before after caps fuel rest2
      else if c.isDigit then
        match rest2 with
        | c2 :: rest3 =>
          if c2.isDigit ∧ 0 < 10 * (c.toNat - 48) + (c2.toNat - 48)
              ∧ 10 * (c.toNat - 48) + (c2.toNat - 48) ≤ caps.length then
            caps.getD (10 * (c.toNat - 48) + (c2.toNat - 48) - 1) []
              ++ getSubstGo matched before after caps fuel rest3
          else if 0 < c.toNat - 48 ∧ c.toNat - 48 ≤ caps.length then
            caps.getD (c.toNat - 48 - 1) []
              ++ getSubstGo matched before after caps fuel rest2
          else '$' :: c :: getSubstGo matched before after caps fuel rest2
        | [] =>
          if 0 < c.toNat - 48 ∧ c.toNat - 48 ≤ caps.length then
            caps.getD (c.toNat - 48 - 1) []
          else [ '$', c]
      else '$' :: c :: getSubstGo matched before after caps fuel rest2
  | fuel + 1, c :: rest => c :: getSubstGo matched before after caps fuel rest

/-- ECMAScript `GetSubstitution` applied to a replacement template. -/
def getSubstitution (matched before after : Str) (caps : List Str)
    (templ : Str) : Str :=
  getSubstGo matched before after caps (templ.length + 1) templ

/-- `String.replace` with the non-global injection-block regex and a
*string* replacement: only the first match is replaced, and the
replacement template undergoes `GetSubstitution` against the match (the
template embeds the hook content, so dollar sequences inside the content
are substituted too); no match leaves the text unchanged. -/
def spliceFirst (cs : Str) (templ : Str) (code : Str) : Str :=
  match findMarkerSplit cs code with
  | none => code
  | some (pre, matched, g1, g2, post) =>
    pre ++ getSubstitution matched pre post [g1, g2] templ ++ post

/-- The `startComment` string of `load`:
`\n${start}[START INJECTION]: generate-global-css-vars.ts:${end}\n`. -/
def startComment (cstart cend : Str) : Str :=
  '\n' :: (cstart ++ "[START INJECTION]: generate-global-css-vars.ts:".toList ++ cend)
    ++ ['\n']

/-- The `endComment` string of `load`. -/
def endComment (cstart cend : Str) : Str :=
  '\n' :: (cstart ++ "[END INJECTION]: generate-global-css-vars.ts.".toList ++ cend)
    ++ ['\n']

/-- The full replacement block
`\n${startComment}\n${content}\n${endComment}\n`. -/
def injectionBlock (cstart cend content : Str) : Str :=
  '\n' :: startComment cstart cend ++ '\n' :: content
    ++ '\n' :: endComment cstart cend ++ ['\n']

/-- The leading `(\.\.?\/)` of the captured relative path. -/
def relPathHead (r : Str) : Option Nat :=
  match r with
  | '.' :: '.' :: '/' :: _ => some 3
  | '.' :: '/' :: _ => some 2
  | _ => none

/-- One attempt of `RELATIVE_IMPORT_REGEX =
/(?:@use|@import)\s+("|')(\.\.?\/.*?)\1/gi` at the current position:
case-insensitive keyword, at least one whitespace character, a quote, a
`./`- or `../`-prefixed path (`.*?` lazily up to the first same-quote
character, newlines excluded), the closing quote.  Returns the matched
text, the quote, the captured path, and the remainder. -/
def tryImportMatch (s : Str) : Option (Str × Char × Str × Str) :=
  let kwLen : Option Nat :=
    if (stripPrefCI ("@use".toList) s).isSome then some 4
    else if (stripPrefCI ("@import".toList) s).isSome then some 7
    else none
  match kwLen with
  | none => none
  | some n =>
    let afterKw := s.drop n
    let ws := afterKw.takeWhile isWS
    if ws = [] then none
    else
      match afterKw.drop ws.length with
      | [] => none
      | q :: rest =>
        if q = '"' ∨ q = squote then
          match relPathHead rest with
          | none => none
          | some dotsLen =>
            let body := rest.drop dotsLen
            let mid := body.takeWhile (fun c => c != q && c != '\n')
            match body.drop mid.length with
            | c :: rest2 =>
              if c = q then
                let consumed := n + ws.length + 1 + dotsLen + mid.length + 1
                some (s.take consumed, q, rest.take dotsLen ++ mid, rest2)
              else none
            | [] => none
        else none

end Plugin

namespace Plugin.Part001

/-!  Embedding of the fuller plugin file (the one with importer
back-resolution and with import rewriting). -/

/-- The JS `boolean | number` flag `withID_OrAbsolute`. -/
inductive JSFlag where
  | bool (b : Bool)
  | num (n : Int)
deriving DecidableEq

/-- `__VIRTUAL_ID_PREFIX` of the fuller file:
`'@InjectionHooks_ts:'.toLocaleLowerCase()` (the identifier is renamed here
because its original final word cannot end a name in this development). -/
def VIRTUAL_ID_MARK : Str := "@injectionhooks_ts:".toList

/-- `GEN_ID` of the fuller file, reproducing the source's parenthesization
faithfully: the would-be prefix is string-concatenated with the string form
of `withID_OrAbsolute === 1` *inside the ternary condition*.  That
condition is therefore always a non-empty (truthy) string, so the function
always returns the forward-slashed absolute path, never emits the prefix,
and never reaches the relative branch — although its own doc comment says
it applies the virtual prefix. -/
def GEN_ID (cwd : Str) (f : Str) (withID_OrAbsolute : JSFlag) : Str :=
  let absolutePath := pathResolve cwd [] f
  let relativePath := pathRelative cwd cwd absolutePath
  let cond : Str :=
    (if withID_OrAbsolute = .bool true then VIRTUAL_ID_MARK else [])
      ++ (if withID_OrAbsolute = .num 1 then "true".toList else "false".toList)
  if cond ≠ [] then slashify absolutePath
  else slashify (pathNormalize relativePath)

/-- The four distinct negative outcomes of the fuller file's resolver,
plus the resolved-path outcome. -/
inductive ResOutcome where
  | path (p : Str)
  | neg1
  | neg2
  | neg3
  | neg4
deriving DecidableEq

/-- `fasterSimpleResolveAbsolutePath` of the fuller file. -/
def fasterSimpleResolveAbsolutePath (cwd : Str) (source : Str)
    (importer : Option Str) : ResOutcome :=
  let normalizedSource := slashify (pathNormalize source)
  if pathIsAbsolute normalizedSource then .path normalizedSource
  else if colonSchemeTest normalizedSource then .neg1
  else if ("@".toList).isPrefixOf normalizedSource
      && !(("./".toList).isPrefixOf normalizedSource)
      && !(("../".toList).isPrefixOf normalizedSource) then .neg2
  else if importer.isSome && !relStartTest source && !relStartTest source
      && !(pathIsAbsolute normalizedSource) && !(pathIsAbsolute source) then .neg3
  else
    match importer with
    | some imp =>
      if relStartTest source || relStartTest normalizedSource then
        .path (slashify (pathNormalize
          (pathResolve cwd (pathDirname imp) normalizedSource)))
      else .neg4
    | none => .neg4

/-- The array-to-record normalization of `FileInjectionHooks`:
`acumulador[GEN_ID(atual.filePath)] = atual`. -/
def buildRegistry (cwd : Str) (hooks : List IInjectionHook) : HookReg :=
  hooks.foldl (fun acc h => recordSet acc (GEN_ID cwd h.filePath (.bool true)) h) []

/-- The `effectiveImporter` computation at the top of the fuller file's
`resolveId`: a virtual importer is mapped back to its hook's real file when
some hook's normalized generated id equals the normalized importer;
otherwise the importer is used as given. -/
def effImporter (cwd : Str) (reg : HookReg) (importer : Option Str) : Option Str :=
  match importer with
  | some imp =>
    if injectionHooksTest imp then
      match (reg.map Prod.snd).find? (fun h =>
          pathNormalize (GEN_ID cwd h.filePath (.bool true)) == pathNormalize imp) with
      | some hookMatch => some hookMatch.filePath
      | none => some imp
    else some imp
  | none => none

/-- `resolveId` of the fuller file: the policy resolves the normalized
source against the effective importer, and the first hook whose matcher
accepts the resolved path wins, yielding the generated id and the
`injectedLoader` extension metadata. -/
def resolveId (cwd : Str) (reg : HookReg) (source : Str)
    (importer : Option Str) : Option (Str × Str) :=
  match fasterSimpleResolveAbsolutePath cwd (slashify (pathNormalize source))
      (effImporter cwd reg importer) with
  | .path p =>
    match reg.find? (fun e => isMatchHook e.2 p) with
    | some (_, hook) => some (GEN_ID cwd hook.filePath (.bool true), extLoader p)
    | none => none
  | _ => none

/-- The scan loop of the global relative-import rewrite of `load`: each
match is resolved against the hook's real file; a concrete path is
rewritten as the keyword chosen by a case-sensitive `startsWith('@use')`
test, a space, and the mode-1 identifier in single quotes; a failed
resolution keeps the match unchanged; a non-match advances one character.
The recursion is fueled (one unit per scan step); since every step consumes
at least one character, the fuel supplied by `rewriteImports` never runs
out, and the fuel-exhausted arm is unreachable. -/
def rewriteGo (cwd : Str) (importerFile : Str) : Nat → Str → Str
  | 0, s => s
  | _, [] => []
  | fuel + 1, c :: t =>
    match tryImportMatch (c :: t) with
    | some (m, _q, relPath, rem) =>
      let replacement :=
        match fasterSimpleResolveAbsolutePath cwd relPath (some importerFile) with
        | .path abs =>
          (if ("@use".toList).isPrefixOf m then "@use".toList else "@import".toList)
            ++ (' ' :: squote :: GEN_ID cwd abs (.num 1)) ++ [squote]
        | _ => m
      replacement ++ rewriteGo cwd importerFile fuel rem
    | none => c :: rewriteGo cwd importerFile fuel t

/-- `String.replace` with the global `RELATIVE_IMPORT_REGEX` and the
replacer function of `load`. -/
def rewriteImports (cwd : Str) (importerFile : Str) (s : Str) : Str :=
  rewriteGo cwd importerFile (s.length + 1) s

/-- `load` of the fuller file: prefix test, registry lookup, synchronous
read of the hook's real file from the snapshot `fs` (`.error ()` models the
thrown read error), marker splice, then relative-import rewriting. -/
def load (cwd : Str) (fs : Str → Option Str) (reg : HookReg) (id : Str) :
    Except Unit (Option Str) :=
  if injectionHooksTest id then
    match reg.find? (fun e => e.1 == id) with
    | none => .ok none
    | some (_, hook) =>
      match fs hook.filePath with
      | none => .error ()
      | some originalCode =>
        let sty := getCommentStyle hook.filePath
        let spliced := spliceFirst sty.1
          (injectionBlock sty.1 sty.2 hook.getContent) originalCode
        .ok (some (rewriteImports cwd hook.filePath spliced))
  else .ok none

end Plugin.Part001

namespace Plugin.Part000

/-!  Embedding of the simpler plugin file. -/

/-- `GEN_ID` of the simpler file:
`__VIRTUAL_ID_PREFIX + path.normalize(f).replace(/\\/g, '/')` with the
mixed-case prefix `'@InjectionHooks_ts:'`. -/
def GEN_ID (f : Str) : Str :=
  "@InjectionHooks_ts:".toList ++ slashify (pathNormalize f)

/-- `fasterSimpleResolveAbsolutePath` of the simpler file: the same first
three checks as the fuller file, then a literal `startsWith('.')` test for
the external-package rejection and literal `./`, `../`, `file://` prefix
tests for the relative branch. -/
def fasterSimpleResolveAbsolutePath (cwd : Str) (source : Str)
    (importer : Option Str) : Option Str :=
  let normalizedSource := slashify (pathNormalize source)
  if pathIsAbsolute normalizedSource then some normalizedSource
  else if colonSchemeTest normalizedSource then none
  else if ("@".toList).isPrefixOf normalizedSource
      && !(("./".toList).isPrefixOf normalizedSource)
      && !(("../".toList).isPrefixOf normalizedSource) then none
  else if !((".".toList).isPrefixOf normalizedSource)
      && !(pathIsAbsolute normalizedSource) && importer.isSome then none
  else
    match importer with
    | some imp =>
      if ("./".toList).isPrefixOf normalizedSource
          || ("../".toList).isPrefixOf normalizedSource
          || ("file://".toList).isPrefixOf normalizedSource then
        some (slashify (pathNormalize
          (pathResolve cwd (pathDirname imp) normalizedSource)))
      else none
    | none => none

/-- `resolveId` of the simpler file. -/
def resolveId (cwd : Str) (reg : HookReg) (source : Str)
    (importer : Option Str) : Option (Str × Str) :=
  match fasterSimpleResolveAbsolutePath cwd (slashify (pathNormalize source))
      importer with
  | some p =>
    match reg.find? (fun e => isMatchHook e.2 p) with
    | some (_, hook) => some (GEN_ID hook.filePath, extLoader p)
    | none => none
  | none => none

/-- `load` of the simpler file: prefix test, registry lookup, read, marker
splice — and no import rewriting. -/
def load (fs : Str → Option Str) (reg : HookReg) (id : Str) :
    Except Unit (Option Str) :=
  if injectionHooksTest id then
    match reg.find? (fun e => e.1 == id) with
    | none => .ok none
    | some (_, hook) =>
      match fs hook.filePath with
      | none => .error ()
      | some originalCode =>
        let sty := getCommentStyle hook.filePath
        .ok (some (spliceFirst sty.1
          (injectionBlock sty.1 sty.2 hook.getContent) originalCode))
  else .ok none

end Plugin.Part000

namespace Plugin

/-! Concrete fixtures for the example-level theorems. -/

/-- A hook whose matcher accepts exactly `/p/a.scss`. -/
def aHook : IInjectionHook :=
  { filePath := "/p/a.scss".toList,
    isMatch := some (.func (fun s => s == ( "/p/a.scss".toList))),
    getContent := [] }

/-- A one-entry registry record holding `aHook` under an opaque key. -/
def aReg : HookReg := [( ( "k".toList), aHook)]

/-- A registered SCSS hook with empty injected content. -/
def c3Hook : IInjectionHook :=
  { filePath := "/p/f.scss".toList, isMatch := none, getContent := [] }

def c3Reg : HookReg := [( ( "@injectionhooks_ts:x".toList), c3Hook)]

/-- A file holding one resolvable relative statement (keyword and quote
parameters) followed by an unresolvable one (`./@x/y` normalizes to an
`@`-leading alias specifier, which the policy rejects). -/
def c3File (kw : Str) (q : Char) : Str :=
  kw ++ ' ' :: q :: ( "./a.scss".toList) ++ q :: '\n' :: ( "@use".toList)
    ++ ' ' :: squote :: ( "./@x/y".toList) ++ [squote]

def c3Fs (kw : Str) (q : Char) : Str → Option Str :=
  fun p => if p = ( "/p/f.scss".toList) then some (c3File kw q) else none

/-- What `load` makes of `c3File`: the resolvable statement rewritten with
single quotes and the unprefixed absolute path, the other one untouched. -/
def c3Expected (kw : Str) : Str :=
  kw ++ ' ' :: squote :: ( "/p/a.scss".toList) ++ squote :: '\n' :: ( "@use".toList)
    ++ ' ' :: squote :: ( "./@x/y".toList) ++ [squote]

/-- A registered SCSS hook injecting the single letter `G`. -/
def c5Hook : IInjectionHook :=
  { filePath := "/p/f.scss".toList, isMatch := none, getContent := "G".toList }

def c5Reg : HookReg := [( ( "@injectionhooks_ts:x".toList), c5Hook)]

/-- A file with two marker lines: only the first may be spliced. -/
def c5File : Str :=
  ( "top\n// \x7bgenerate-global-css-vars.ts: a\x7d\nmid\n// \x7bgenerate-global-css-vars.ts: b\x7d\nbody".toList)

def c5Fs : Str → Option Str :=
  fun p => if p = ( "/p/f.scss".toList) then some c5File else none


/-- A hook whose freshly computed content is the two characters `$&`. -/
def c5dHook : IInjectionHook :=
  { filePath := "/p/f.scss".toList, isMatch := none, getContent := "$&".toList }

def c5dReg : HookReg := [( ( "@injectionhooks_ts:x".toList), c5dHook)]

/-- A one-marker file. -/
def c5dFile : Str := ( "A\n// \x7bgenerate-global-css-vars.ts: x\x7d\nB".toList)

def c5dFs : Str → Option Str :=
  fun p => if p = ( "/p/f.scss".toList) then some c5dFile else none

/-- What `load` actually produces: GetSubstitution turns the `$&` in the
block into the matched marker text. -/
def c5dActual : Str :=
  ( "A\n\n//[START INJECTION]: generate-global-css-vars.ts:\n\n\n// \x7bgenerate-global-css-vars.ts: x\x7d\n\n\n//[END INJECTION]: generate-global-css-vars.ts.\n\nB".toList)

/-- What the claim prescribes: the block holding the content verbatim. -/
def c5dClaimed : Str :=
  ( "A\n\n//[START INJECTION]: generate-global-css-vars.ts:\n\n$&\n\n//[END INJECTION]: generate-global-css-vars.ts.\n\nB".toList)

/-- The spliced result: block in place of the first marker line, second
marker line intact. -/
def c5Expected : Str :=
  ( "top\n\n//[START INJECTION]: generate-global-css-vars.ts:\n\nG\n\n//[END INJECTION]: generate-global-css-vars.ts.\n\nmid\n// \x7bgenerate-global-css-vars.ts: b\x7d\nbody".toList)

end Plugin

/-! ## Theorems -/

namespace BaseTs

/-! Auxiliary lemmas. -/

theorem hasDuplicates_eq_false_iff (l : Str) :
    hasDuplicates l = false ↔ l.Nodup := by
  unfold hasDuplicates
  rw [bne_eq_false_iff_eq]
  constructor
  · intro h
    have hsub : l.dedup.Sublist l := l.dedup_sublist
    have : l.dedup = l := hsub.eq_of_length (by omega)
    simpa [this] using (l.nodup_dedup)
  · intro h
    rw [List.dedup_eq_self.mpr h]

theorem accumulate_eq_ofDigits (A v : Str) :
    accumulate A v =
      Nat.ofDigits A.length ((v.map (fun c => A.indexOf c)).reverse) := by
  induction v using List.reverseRecOn with
  | nil => simp [accumulate, Nat.ofDigits]
  | append_singleton v c ih =>
    have h1 : accumulate A (v ++ [c]) = accumulate A v * A.length + A.indexOf c := by
      simp [accumulate, List.foldl_append]
    rw [h1, ih, List.map_append, List.map_cons, List.map_nil, List.reverse_append,
      List.reverse_cons, List.reverse_nil, List.nil_append, List.singleton_append,
      Nat.ofDigits_cons]
    ring

theorem emitDigits_eq_digits (b : Nat) (hb : 2 ≤ b) (n : Nat) :
    emitDigits b n = Nat.digits b n := by
  induction n using Nat.strong_induction_on with
  | _ n ih =>
    rw [emitDigits]
    by_cases hn : n = 0
    · simp [hn, hb]
    · rw [dif_pos hb, dif_neg hn, ih (n / b) (Nat.div_lt_self (Nat.pos_of_ne_zero hn) hb),
        Nat.digits_def' (by omega : 1 < b) (Nat.pos_of_ne_zero hn)]

theorem indexOf_eq_zero_iff {l : Str} {c : Char} (hl : l ≠ []) :
    l.indexOf c = 0 ↔ c = l.headI := by
  cases l with
  | nil => exact absurd rfl hl
  | cons a t =>
    have hh : (a :: t).headI = a := rfl
    rw [hh]
    constructor
    · intro h
      by_contra hc
      rw [List.indexOf_cons_ne _ (Ne.symm hc)] at h
      exact Nat.succ_ne_zero _ h
    · intro h
      subst h
      exact List.indexOf_cons_self _ _

theorem accumulate_all_head (A : Str) (zs : Str)
    (hzs : ∀ c ∈ zs, c = A.headI) (hA : A ≠ []) :
    accumulate A zs = 0 := by
  induction zs with
  | nil => rfl
  | cons c t ih =>
    have hc : c = A.headI := hzs c (by simp)
    have hidx : A.indexOf c = 0 := (indexOf_eq_zero_iff hA).mpr hc
    have ht : accumulate A t = 0 := ih (fun x hx => hzs x (by simp [hx]))
    simpa [accumulate, hidx] using ht

theorem accumulate_append (A : Str) (u w : Str) (hu : accumulate A u = 0) :
    accumulate A (u ++ w) = accumulate A w := by
  unfold accumulate at *
  rw [List.foldl_append, hu]

theorem dropWhile_head_false {p : Char → Bool} {v : Str} {c : Char} {s : Str}
    (h : v.dropWhile p = c :: s) : p c = false := by
  induction v with
  | nil => simp [List.dropWhile] at h
  | cons a t ih =>
    rw [List.dropWhile_cons] at h
    by_cases hp : p a = true
    · exact ih (by simpa [hp] using h)
    · rw [if_neg (by simp [hp])] at h
      cases h
      simpa using hp

theorem find?_not_contains_eq_none {A v : Str} (hv : ∀ c ∈ v, c ∈ A) :
    v.find? (fun c => !(A.contains c)) = none := by
  rw [List.find?_eq_none]
  intro x hx
  simp [hv x hx]

/-- Core rendering round trip: parsing a value and re-rendering it in the
same alphabet yields the value stripped of leading zero symbols, provided the
value is non-trivial: its head is not the zero symbol. -/
theorem render_accumulate (A : Str) (t : Str) (hA : A.Nodup)
    (ht : t ≠ []) (hmem : ∀ c ∈ t, c ∈ A) (hhead : t.headI ≠ A.headI) :
    ((emitDigits A.length (accumulate A t)).reverse).map
      (fun d => A.getD d 'A') = t := by
  obtain ⟨c, s, rfl⟩ : ∃ c s, t = c :: s := by
    cases t with
    | nil => exact absurd rfl ht
    | cons c s => exact ⟨c, s, rfl⟩
  have hcA : c ∈ A := hmem c (by simp)
  have hAne : A ≠ [] := by
    intro h; rw [h] at hcA; exact absurd hcA (by simp)
  have hidxc : A.indexOf c ≠ 0 := by
    intro h
    exact hhead (by simpa [List.headI] using (indexOf_eq_zero_iff hAne).mp h)
  have hidxlt : A.indexOf c < A.length := List.indexOf_lt_length.mpr hcA
  have hA2 : 2 ≤ A.length := by omega
  have hlt : ∀ d ∈ ((c :: s).map (fun x => A.indexOf x)).reverse, d < A.length := by
    intro d hd
    rw [List.mem_reverse, List.mem_map] at hd
    obtain ⟨x, hx, rfl⟩ := hd
    exact List.indexOf_lt_length.mpr (hmem x hx)
  have hlast : ∀ h : ((c :: s).map (fun x => A.indexOf x)).reverse ≠ [],
      (((c :: s).map (fun x => A.indexOf x)).reverse).getLast h ≠ 0 := by
    intro h
    rw [List.getLast_reverse]
    simpa using hidxc
  rw [accumulate_eq_ofDigits, emitDigits_eq_digits _ hA2,
    Nat.digits_ofDigits _ (by omega : 1 < A.length) _ hlt hlast,
    List.reverse_reverse, List.map_map]
  conv_rhs => rw [← List.map_id (c :: s)]
  apply List.map_congr_left
  intro a ha
  have haA : a ∈ A := hmem a ha
  have haLt : A.indexOf a < A.length := List.indexOf_lt_length.mpr haA
  simp only [Function.comp_apply, id_eq]
  rw [List.getD_eq_getElem _ _ haLt]
  exact List.getElem_indexOf haLt

/-- Unfolding of `convertBase` for well-formed inputs. -/
theorem convertBase_ok (v A B : Str) (hA : A.Nodup) (hB : B.Nodup)
    (hv : ∀ c ∈ v, c ∈ A) :
    convertBase v (.str A) (.str B) =
      (if accumulate A v = 0 then .ok (B.take 1)
       else .ok (((emitDigits B.length (accumulate A v)).reverse).map
           (fun d => B.getD d 'A'))) := by
  have hdA : hasDuplicates A = false := (hasDuplicates_eq_false_iff A).mpr hA
  have hdB : hasDuplicates B = false := (hasDuplicates_eq_false_iff B).mpr hB
  simp only [convertBase, normalizeBase, hdA, hdB, Bool.false_eq_true, if_false,
    find?_not_contains_eq_none hv]

/-- Every character of a rendered numeral belongs to the destination
alphabet. -/
theorem render_mem (B : Str) (hB2 : 2 ≤ B.length) (n : Nat) :
    ∀ c ∈ ((emitDigits B.length n).reverse).map (fun d => B.getD d 'A'), c ∈ B := by
  intro c hc
  rw [List.mem_map] at hc
  obtain ⟨d, hd, rfl⟩ := hc
  rw [List.mem_reverse, emitDigits_eq_digits _ hB2] at hd
  have hlt : d < B.length := Nat.digits_lt_base (by omega) hd
  rw [List.getD_eq_getElem _ _ hlt]
  exact List.getElem_mem _

/-- Parsing a rendered numeral in the same (duplicate-free) alphabet
recovers the number. -/
theorem accumulate_render (B : Str) (hB : B.Nodup) (hB2 : 2 ≤ B.length) (n : Nat) :
    accumulate B (((emitDigits B.length n).reverse).map (fun d => B.getD d 'A')) = n := by
  rw [accumulate_eq_ofDigits, List.map_map]
  have hmap : ((emitDigits B.length n).reverse).map
      ((fun c => B.indexOf c) ∘ (fun d => B.getD d 'A')) = (emitDigits B.length n).reverse := by
    conv_rhs => rw [← List.map_id ((emitDigits B.length n).reverse)]
    apply List.map_congr_left
    intro d hd
    rw [List.mem_reverse, emitDigits_eq_digits _ hB2] at hd
    have hdlt : d < B.length := Nat.digits_lt_base (by omega) hd
    simp only [Function.comp_apply, id_eq]
    rw [List.getD_eq_getElem _ _ hdlt]
    exact List.indexOf_getElem hB d hdlt
  rw [hmap, List.reverse_reverse, emitDigits_eq_digits _ hB2, Nat.ofDigits_digits]

/-- **C1**: for alphabets `A`, `B` with unique symbols (a genuine positional
base on the destination side, so that the emission loop terminates) and a
value `v` over `A`, converting to `B` and back yields `v` up to
leading-zero-symbol normalization, and a value accumulating to zero converts
to the single first symbol of the destination alphabet. -/
theorem claim_C1_roundtrip (A B v : Str)
    (hA : A.Nodup) (hB : B.Nodup) (hA0 : A ≠ []) (hB2 : 2 ≤ B.length)
    (hv : ∀ c ∈ v, c ∈ A) :
    ∃ w, convertBase v (BaseArg.str A) (BaseArg.str B) = .ok w ∧
      convertBase w (BaseArg.str B) (BaseArg.str A) = .ok (stripLeadingZeros A v) ∧
      (accumulate A v = 0 → w = B.take 1) := by
  have hAlen : A.length ≠ 0 := by
    simpa using (List.length_pos.mpr hA0).ne'
  by_cases h0 : accumulate A v = 0
  · refine ⟨B.take 1, ?_, ?_, fun _ => rfl⟩
    · rw [convertBase_ok v A B hA hB hv, if_pos h0]
    · obtain ⟨b, t, rfl⟩ : ∃ b t, B = b :: t := by
        cases B with
        | nil => simp at hB2
        | cons b t => exact ⟨b, t, rfl⟩
      have htake : (b :: t).take 1 = [b] := rfl
      rw [htake, convertBase_ok [b] (b :: t) A hB hA
        (by intro c hc; simp at hc; simp [hc])]
      have hacc : accumulate (b :: t) [b] = 0 := by
        simp [accumulate, List.indexOf_cons_self]
      rw [if_pos hacc]
      congr 1
      have hall : ∀ c ∈ v, c = A.headI := by
        intro c hc
        have hof : Nat.ofDigits A.length ((v.map (fun c => A.indexOf c)).reverse) = 0 := by
          rw [← accumulate_eq_ofDigits]; exact h0
        have hz := Nat.digits_zero_of_eq_zero hAlen hof (A.indexOf c)
          (by rw [List.mem_reverse]; exact List.mem_map_of_mem _ hc)
        exact (indexOf_eq_zero_iff hA0).mp hz
      unfold stripLeadingZeros
      rw [List.dropWhile_eq_nil_iff.mpr (by intro x hx; simpa using hall x hx)]
  · refine ⟨((emitDigits B.length (accumulate A v)).reverse).map
        (fun d => B.getD d 'A'), ?_, ?_, fun hz => absurd hz h0⟩
    · rw [convertBase_ok v A B hA hB hv, if_neg h0]
    · have hwmem := render_mem B hB2 (accumulate A v)
      rw [convertBase_ok _ B A hB hA hwmem, accumulate_render B hB hB2, if_neg h0]
      congr 1
      have hsplit := List.takeWhile_append_dropWhile (p := fun c => c == A.headI) (l := v)
      have htake0 : accumulate A (v.takeWhile (fun c => c == A.headI)) = 0 := by
        apply accumulate_all_head _ _ _ hA0
        intro c hc
        simpa using List.mem_takeWhile_imp hc
      have hNt : accumulate A v = accumulate A (v.dropWhile (fun c => c == A.headI)) := by
        conv_lhs => rw [← hsplit]
        exact accumulate_append A _ _ htake0
      obtain ⟨c, s, hcs⟩ : ∃ c s, v.dropWhile (fun c => c == A.headI) = c :: s := by
        cases hd : v.dropWhile (fun c => c == A.headI) with
        | nil =>
          exfalso
          apply h0
          apply accumulate_all_head _ _ _ hA0
          intro x hx
          simpa using List.dropWhile_eq_nil_iff.mp hd x hx
        | cons c s => exact ⟨c, s, rfl⟩
      have hmemt : ∀ x ∈ v.dropWhile (fun c => c == A.headI), x ∈ A := by
        intro x hx
        exact hv x ((List.dropWhile_sublist _).mem hx)
      have hheadt : (v.dropWhile (fun c => c == A.headI)).headI ≠ A.headI := by
        rw [hcs]
        have := dropWhile_head_false hcs
        simpa using this
      rw [hNt, render_accumulate A _ hA (by rw [hcs]; simp) hmemt hheadt]
      unfold stripLeadingZeros
      rw [hcs]

/-- `convertBase` reduced past the two shape checks. -/
theorem convertBase_shape_ok (v : Str) {fa ta : BaseArg} {A B : Str}
    (ha : normalizeBase fa = .ok A) (hb : normalizeBase ta = .ok B) :
    convertBase v fa ta =
      (if hasDuplicates A then .error .dupFrom
       else if hasDuplicates B then .error .dupTo
       else
         match v.find? (fun c => !(A.contains c)) with
         | some c => .error (.badChar c)
         | none =>
           if accumulate A v = 0 then .ok (B.take 1)
           else .ok (((emitDigits B.length (accumulate A v)).reverse).map
               (fun d => B.getD d 'A'))) := by
  simp only [convertBase, ha, hb]

/-- Error classification of `convertBase` for shape-correct alphabets. -/
theorem convertBase_classify {fa ta : BaseArg} {A B : Str} (v : Str)
    (ha : normalizeBase fa = .ok A) (hb : normalizeBase ta = .ok B) :
    (convertBase v fa ta ≠ .error .typeErr)
    ∧ ((convertBase v fa ta = .error .dupFrom ∨ convertBase v fa ta = .error .dupTo)
        ↔ (hasDuplicates A ∨ hasDuplicates B))
    ∧ ((∃ c, convertBase v fa ta = .error (.badChar c))
        ↔ (hasDuplicates A = false ∧ hasDuplicates B = false ∧ ∃ c ∈ v, c ∉ A)) := by
  rw [convertBase_shape_ok v ha hb]
  by_cases h1 : hasDuplicates A
  · simp [h1]
  · by_cases h2 : hasDuplicates B
    · simp [h1, h2]
    · simp only [h1, h2, Bool.false_eq_true, if_false]
      cases hf : v.find? (fun c => !(A.contains c)) with
      | some c =>
        have hcm : c ∈ v := List.mem_of_find?_eq_some hf
        have hcp := List.find?_some hf
        refine ⟨by simp, by simp [h1, h2], ?_⟩
        constructor
        · rintro ⟨c', _⟩
          refine ⟨by simp [h1], by simp [h2], c, hcm, ?_⟩
          simpa using hcp
        · intro _
          exact ⟨c, rfl⟩
      | none =>
        have hnone := List.find?_eq_none.mp hf
        refine ⟨?_, ?_, ?_⟩
        · split <;> (try split) <;> simp
        · constructor
          · rintro (h | h) <;> revert h <;> split <;> (try split) <;> simp
          · rintro (h | h) <;> simp_all
        · constructor
          · rintro ⟨c', hc'⟩
            revert hc'
            split <;> (try split) <;> simp_all
          · rintro ⟨_, _, c, hcv, hcA⟩
            exact absurd (by simpa using hnone c hcv) hcA

/-- **C7**: `convertBase` throws its `TypeError` exactly when an alphabet
argument is neither a string nor an array; for shape-correct alphabets it
throws a duplicate-symbol error exactly when an alphabet has a duplicate,
and an out-of-alphabet error exactly when (both alphabets being
duplicate-free) the value has a character outside the source alphabet.  All
failures are returned as `Except.error`: the call produces no partial
result. -/
theorem claim_C7_convertBase_errors (v : Str) (fa ta : BaseArg) :
    (convertBase v fa ta = .error .typeErr ↔ (fa = .other ∨ ta = .other))
    ∧ (∀ A B, normalizeBase fa = .ok A → normalizeBase ta = .ok B →
        ((convertBase v fa ta = .error .dupFrom ∨ convertBase v fa ta = .error .dupTo)
          ↔ (hasDuplicates A ∨ hasDuplicates B))
        ∧ ((∃ c, convertBase v fa ta = .error (.badChar c))
          ↔ (hasDuplicates A = false ∧ hasDuplicates B = false ∧ ∃ c ∈ v, c ∉ A))) := by
  constructor
  · constructor
    · intro h
      by_contra hno
      push_neg at hno
      obtain ⟨h1, h2⟩ := hno
      obtain ⟨A, hA⟩ : ∃ A, normalizeBase fa = .ok A := by
        cases fa with
        | str s => exact ⟨s, rfl⟩
        | arr a => exact ⟨a, rfl⟩
        | other => exact absurd rfl h1
      obtain ⟨B, hB⟩ : ∃ B, normalizeBase ta = .ok B := by
        cases ta with
        | str s => exact ⟨s, rfl⟩
        | arr a => exact ⟨a, rfl⟩
        | other => exact absurd rfl h2
      exact (convertBase_classify v hA hB).1 h
    · intro h
      rcases h with h | h
      · subst h; rfl
      · subst h; cases fa <;> rfl
  · intro A B hA hB
    exact (convertBase_classify v hA hB).2

/-- Witness for C7 at concrete inputs: value `"9"` against source alphabet
`"01"` is an out-of-alphabet error. -/
theorem claim_C7_witness :
    ∃ c, convertBase ['9'] (BaseArg.str ['0', '1']) (BaseArg.str ['0', '1'])
      = Except.error (ConvError.badChar c) :=
  ((claim_C7_convertBase_errors ['9'] (BaseArg.str ['0', '1'])
      (BaseArg.str ['0', '1'])).2 ['0', '1'] ['0', '1'] rfl rfl).2.mpr (by decide)

/-- **C10**: `convertBase` on the empty value with shape-correct,
duplicate-free alphabets raises no error and returns the single first symbol
of the destination alphabet; the empty numeral accumulates to zero. -/
theorem claim_C10_empty_value {fa ta : BaseArg} {A B : Str}
    (ha : normalizeBase fa = .ok A) (hb : normalizeBase ta = .ok B)
    (hA : A.Nodup) (hB : B.Nodup) (hB0 : B ≠ []) :
    convertBase [] fa ta = .ok (B.take 1) ∧ B.take 1 = [B.headI]
      ∧ accumulate A [] = 0 := by
  refine ⟨?_, ?_, rfl⟩
  · rw [convertBase_shape_ok [] ha hb,
      if_neg (by simp [(hasDuplicates_eq_false_iff A).mpr hA]),
      if_neg (by simp [(hasDuplicates_eq_false_iff B).mpr hB])]
    rfl
  · cases B with
    | nil => exact absurd rfl hB0
    | cons b t => rfl

/-- Witness for C10 at concrete alphabets. -/
theorem claim_C10_witness :
    convertBase [] (BaseArg.str ['0', '1']) (BaseArg.str ['a', 'b'])
        = .ok (['a', 'b'].take 1)
      ∧ ['a', 'b'].take 1 = [(['a', 'b'] : Str).headI]
      ∧ accumulate ['0', '1'] [] = 0 :=
  claim_C10_empty_value rfl rfl (by decide) (by decide) (by decide)

/-- Witness for C1 at concrete inputs: `"010"` over `"01"` through `"012"`
and back comes out as `"10"`, the normalized form. -/
theorem claim_C1_witness :
    ∃ w, convertBase ['0', '1', '0'] (BaseArg.str ['0', '1'])
        (BaseArg.str ['0', '1', '2']) = .ok w ∧
      convertBase w (BaseArg.str ['0', '1', '2']) (BaseArg.str ['0', '1'])
        = .ok (stripLeadingZeros ['0', '1'] ['0', '1', '0']) ∧
      (accumulate ['0', '1'] ['0', '1', '0'] = 0 → w = ['0', '1', '2'].take 1) :=
  claim_C1_roundtrip ['0', '1'] ['0', '1', '2'] ['0', '1', '0']
    (by decide) (by decide) (by decide) (by decide) (by decide)

end BaseTs

namespace Plugin

/-- **C2**: by the source's parenthesization, `GEN_ID`'s ternary condition
is the would-be prefix string-concatenated with a boolean's string form —
always a non-empty, truthy string — so the default prefixed-absolute mode
returns the bare forward-slashed absolute path without the virtual prefix
that the function's own documentation and the specification prescribe.
The code is evaluated here at the failing input (`f = "a.ts"`, working
directory `/proj`, default mode). -/
theorem claim_C2_genid_drops_mark :
    Part001.GEN_ID ( "/proj".toList) ( "a.ts".toList) (Part001.JSFlag.bool true)
        = ( "/proj/a.ts".toList)
      ∧ Part001.VIRTUAL_ID_MARK.isPrefixOf
          (Part001.GEN_ID ( "/proj".toList) ( "a.ts".toList) (Part001.JSFlag.bool true))
        = false := by
  decide

/-- **C4**: the policy resolves `./sibling.scss` against `/proj/src/a.scss`
to `/proj/src/sibling.scss` and classifies `https://x/y` as the
foreign-scheme outcome with or without importer, as the claim states; but
`lodash` with an importer present is *resolved* to `/proj/src/lodash`
instead of yielding the external-package outcome: the second alternative of
`REGEX_START_RELATIVE_PATH` accepts any leading plain-name character, so
the bare-package check (whose own comment says such imports are for the
bundler) never fires and the relative-combination branch runs. -/
theorem claim_C4_policy_examples :
    Part001.fasterSimpleResolveAbsolutePath ( "/w".toList) ( "./sibling.scss".toList)
        (some ( "/proj/src/a.scss".toList))
      = .path ( "/proj/src/sibling.scss".toList)
    ∧ Part001.fasterSimpleResolveAbsolutePath ( "/w".toList) ( "https://x/y".toList)
        (some ( "/proj/src/a.scss".toList)) = .neg1
    ∧ Part001.fasterSimpleResolveAbsolutePath ( "/w".toList) ( "https://x/y".toList) none
      = .neg1
    ∧ Part001.fasterSimpleResolveAbsolutePath ( "/w".toList) ( "lodash".toList)
        (some ( "/proj/src/a.scss".toList))
      = .path ( "/proj/src/lodash".toList)
    ∧ relStartTest ( "lodash".toList) = true := by
  decide

/-- **C6**: `load` of the fuller engine returns null whenever the id lacks
the virtual-identifier prefix, returns null whenever the id is not a key of
the registry, and produces a string only for prefix-carrying registered
ids. -/
theorem claim_C6_load_null (cwd : Str) (fs : Str → Option Str) (reg : HookReg)
    (id : Str) :
    (injectionHooksTest id = false → Part001.load cwd fs reg id = .ok none)
    ∧ (reg.find? (fun e => e.1 == id) = none → Part001.load cwd fs reg id = .ok none)
    ∧ (∀ s, Part001.load cwd fs reg id = .ok (some s) →
        injectionHooksTest id = true
          ∧ ∃ k hook, reg.find? (fun e => e.1 == id) = some (k, hook)) := by
  refine ⟨?_, ?_, ?_⟩
  · intro h
    unfold Part001.load
    rw [if_neg (by simp [h])]
  · intro h
    unfold Part001.load
    split
    · rw [h]
    · rfl
  · intro s h
    unfold Part001.load at h
    by_cases hid : injectionHooksTest id = true
    · refine ⟨hid, ?_⟩
      rw [if_pos hid] at h
      cases hfind : reg.find? (fun e => e.1 == id) with
      | none =>
        rw [hfind] at h
        exact absurd h (by simp)
      | some kv => exact ⟨kv.1, kv.2, rfl⟩
    · rw [if_neg hid] at h
      exact absurd h (by simp)

/-- Witness for C6: an unprefixed id and a prefixed but unregistered id
both load as null against a concrete registry. -/
theorem claim_C6_witness :
    Part001.load ( "/w".toList) (fun _ => none) aReg ( "nope".toList) = .ok none
    ∧ Part001.load ( "/w".toList) (fun _ => none) aReg
        ( "@injectionhooks_ts:zz".toList) = .ok none :=
  ⟨(claim_C6_load_null _ _ _ _).1 (by decide),
   (claim_C6_load_null _ _ _ _).2.1 rfl⟩

/-- `recordSet` preserves any per-entry property that the new binding
satisfies. -/
theorem recordSet_inv {P : Str × IInjectionHook → Prop} (reg : HookReg)
    (k : Str) (v : IInjectionHook) (hreg : ∀ e ∈ reg, P e) (hkv : P (k, v)) :
    ∀ e ∈ recordSet reg k v, P e := by
  intro e he
  unfold recordSet at he
  split at he
  · rw [List.mem_map] at he
    obtain ⟨x, hx, rfl⟩ := he
    by_cases hxk : x.1 == k
    · simpa [hxk] using hkv
    · simpa [hxk] using hreg x hx
  · rw [List.mem_append] at he
    rcases he with h | h
    · exact hreg e h
    · rw [List.mem_singleton] at h
      subst h
      exact hkv

theorem buildRegistry_aux (cwd : Str) (hl : List IInjectionHook) :
    ∀ acc : HookReg,
      (∀ e ∈ acc, e.1 = Part001.GEN_ID cwd e.2.filePath (Part001.JSFlag.bool true)) →
      ∀ e ∈ hl.foldl (fun acc h =>
          recordSet acc (Part001.GEN_ID cwd h.filePath (.bool true)) h) acc,
        e.1 = Part001.GEN_ID cwd e.2.filePath (Part001.JSFlag.bool true) := by
  induction hl with
  | nil =>
    intro acc hacc
    simpa only [List.foldl_nil] using hacc
  | cons h t ih =>
    intro acc hacc
    rw [List.foldl_cons]
    exact ih _ (recordSet_inv _ _ _ hacc rfl)

/-- The registry invariant: every entry of a registry built from an array
of hooks is keyed by the generated id of its own hook's file path. -/
theorem buildRegistry_keys (cwd : Str) (hl : List IInjectionHook) :
    ∀ e ∈ Part001.buildRegistry cwd hl,
      e.1 = Part001.GEN_ID cwd e.2.filePath (Part001.JSFlag.bool true) := by
  unfold Part001.buildRegistry
  exact buildRegistry_aux cwd hl [] (by simp)

/-- **C9**: whenever `resolveId` returns non-null, the returned id is
`GEN_ID` of the file path of the first registered hook (in insertion
order) whose matcher accepts the resolved specifier, the metadata is the
resolved path's extension, and for a registry built from an array of hooks
the returned id is one of the registry's keys. -/
theorem claim_C9_resolveId_first_hook (cwd : Str) (reg : HookReg) (source : Str)
    (importer : Option Str) (id ext : Str)
    (h : Part001.resolveId cwd reg source importer = some (id, ext)) :
    ∃ p k hook,
      Part001.fasterSimpleResolveAbsolutePath cwd (slashify (pathNormalize source))
          (Part001.effImporter cwd reg importer) = .path p
      ∧ reg.find? (fun e => isMatchHook e.2 p) = some (k, hook)
      ∧ id = Part001.GEN_ID cwd hook.filePath (Part001.JSFlag.bool true)
      ∧ ext = extLoader p
      ∧ (∀ hl, reg = Part001.buildRegistry cwd hl → ∃ hook2, (id, hook2) ∈ reg) := by
  unfold Part001.resolveId at h
  split at h
  · rename_i p hres
    split at h
    · rename_i k hook hfind
      have h2 := Option.some.inj h
      have hid : id = Part001.GEN_ID cwd hook.filePath (Part001.JSFlag.bool true) :=
        (congrArg Prod.fst h2).symm
      have hext : ext = extLoader p := (congrArg Prod.snd h2).symm
      refine ⟨p, k, hook, hres, hfind, hid, hext, ?_⟩
      intro hl hreg
      have hmem : (k, hook) ∈ reg := List.mem_of_find?_eq_some hfind
      have hkey : k = Part001.GEN_ID cwd hook.filePath (Part001.JSFlag.bool true) :=
        buildRegistry_keys cwd hl (k, hook) (hreg ▸ hmem)
      rw [hid, ← hkey]
      exact ⟨hook, hmem⟩
    · exact absurd h (by simp)
  · exact absurd h (by simp)

/-- Witness for C9 on a registry built from one concrete hook. -/
theorem claim_C9_witness :
    ∃ p k hook,
      Part001.fasterSimpleResolveAbsolutePath ( "/w".toList)
          (slashify (pathNormalize ( "/p/a.scss".toList)))
          (Part001.effImporter ( "/w".toList)
            (Part001.buildRegistry ( "/w".toList) [aHook]) none) = .path p
      ∧ (Part001.buildRegistry ( "/w".toList) [aHook]).find?
          (fun e => isMatchHook e.2 p) = some (k, hook)
      ∧ ( "/p/a.scss".toList) = Part001.GEN_ID ( "/w".toList) hook.filePath
          (Part001.JSFlag.bool true)
      ∧ ( "scss".toList) = extLoader p
      ∧ (∀ hl, Part001.buildRegistry ( "/w".toList) [aHook]
            = Part001.buildRegistry ( "/w".toList) hl →
          ∃ hook2, (( "/p/a.scss".toList), hook2)
            ∈ Part001.buildRegistry ( "/w".toList) [aHook]) :=
  claim_C9_resolveId_first_hook ( "/w".toList)
    (Part001.buildRegistry ( "/w".toList) [aHook])
    ( "/p/a.scss".toList) none ( "/p/a.scss".toList) ( "scss".toList) rfl


/-- Reduction of the fuller `load` for a prefixed, registered id whose real
file is readable. -/
theorem load001_eq (cwd : Str) (fs : Str → Option Str) (reg : HookReg)
    (id k : Str) (hook : IInjectionHook) (code : Str)
    (hid : injectionHooksTest id = true)
    (hfind : reg.find? (fun e => e.1 == id) = some (k, hook))
    (hfs : fs hook.filePath = some code) :
    Part001.load cwd fs reg id = .ok (some (Part001.rewriteImports cwd hook.filePath
      (spliceFirst (getCommentStyle hook.filePath).1
        (injectionBlock (getCommentStyle hook.filePath).1
          (getCommentStyle hook.filePath).2 hook.getContent) code))) := by
  unfold Part001.load
  rw [if_pos hid, hfind]
  simp only [hfs]

/-- A replacement template containing no dollar sign passes through the
GetSubstitution scan verbatim. -/
theorem getSubstGo_no_dollar (matched before after : Str) (caps : List Str) :
    ∀ (fuel : Nat) (s : Str), '$' ∉ s → s.length < fuel →
      getSubstGo matched before after caps fuel s = s := by
  intro fuel
  induction fuel with
  | zero =>
    intro s _ hl
    omega
  | succ n ih =>
    intro s hd hl
    match s with
    | [] => rfl
    | c :: rest =>
      have hc : ¬(c = '$') := by
        intro h
        exact hd (by simp [h])
      have hrest : '$' ∉ rest := by
        intro h
        exact hd (by simp [h])
      have hlen : rest.length < n := by
        simp only [List.length_cons] at hl
        omega
      have hstep : getSubstGo matched before after caps (n + 1) (c :: rest)
          = c :: getSubstGo matched before after caps n rest := by
        rw [getSubstGo.eq_def]
        split <;> simp_all
      rw [hstep, ih rest hrest hlen]

/-- No-dollar templates are inserted literally by `getSubstitution`. -/
theorem getSubstitution_no_dollar (matched before after : Str) (caps : List Str)
    (templ : Str) (h : '$' ∉ templ) :
    getSubstitution matched before after caps templ = templ :=
  getSubstGo_no_dollar matched before after caps (templ.length + 1) templ h
    (by omega)

set_option maxRecDepth 8192 in
/-- **C5** (counterexample): with a hook whose freshly computed content is
the two characters `$&`, `load` splices the GetSubstitution image of the
block — the `$&` becomes the matched marker text — and not a block holding
the content verbatim, which is what the claim prescribes. -/
theorem claim_C5_counterexample :
    Part001.load ( "/w".toList) c5dFs c5dReg ( "@injectionhooks_ts:x".toList)
      = .ok (some c5dActual)
    ∧ c5dActual ≠ c5dClaimed := by
  constructor
  · exact (load001_eq ( "/w".toList) c5dFs c5dReg ( "@injectionhooks_ts:x".toList)
      ( "@injectionhooks_ts:x".toList) c5dHook c5dFile (by decide) rfl rfl).trans
      (congrArg (fun x => Except.ok (some x)) (by decide))
  · decide

/-- **C5 (amended)**: for a registered id, `load` replaces exactly the
first match of the marker pattern by the GetSubstitution image of the
injection block; the block is a blank line, the start marker line, a blank
line, the hook's freshly computed content, a blank line, the end marker
line, and a blank line, and whenever it contains no dollar sign (in
particular for dollar-free content) it is inserted verbatim; a file with
no match passes through the splice stage unchanged, with no error
raised. -/
theorem claim_C5_load_splices_first (cwd : Str) (fs : Str → Option Str)
    (reg : HookReg) (id k : Str) (hook : IInjectionHook) (code : Str)
    (hid : injectionHooksTest id = true)
    (hfind : reg.find? (fun e => e.1 == id) = some (k, hook))
    (hfs : fs hook.filePath = some code) :
    Part001.load cwd fs reg id = .ok (some (Part001.rewriteImports cwd hook.filePath
        (spliceFirst (getCommentStyle hook.filePath).1
          (injectionBlock (getCommentStyle hook.filePath).1
            (getCommentStyle hook.filePath).2 hook.getContent) code)))
    ∧ injectionBlock (getCommentStyle hook.filePath).1
          (getCommentStyle hook.filePath).2 hook.getContent
      = [ '\n', '\n'] ++ (getCommentStyle hook.filePath).1
        ++ ( "[START INJECTION]: generate-global-css-vars.ts:".toList)
        ++ (getCommentStyle hook.filePath).2 ++ [ '\n', '\n'] ++ hook.getContent
        ++ [ '\n', '\n'] ++ (getCommentStyle hook.filePath).1
        ++ ( "[END INJECTION]: generate-global-css-vars.ts.".toList)
        ++ (getCommentStyle hook.filePath).2 ++ [ '\n', '\n']
    ∧ (findMarkerSplit (getCommentStyle hook.filePath).1 code = none →
        spliceFirst (getCommentStyle hook.filePath).1
          (injectionBlock (getCommentStyle hook.filePath).1
            (getCommentStyle hook.filePath).2 hook.getContent) code = code)
    ∧ (∀ pre matched g1 g2 post,
        findMarkerSplit (getCommentStyle hook.filePath).1 code
            = some (pre, matched, g1, g2, post) →
        spliceFirst (getCommentStyle hook.filePath).1
          (injectionBlock (getCommentStyle hook.filePath).1
            (getCommentStyle hook.filePath).2 hook.getContent) code
          = pre ++ getSubstitution matched pre post [g1, g2]
              (injectionBlock (getCommentStyle hook.filePath).1
                (getCommentStyle hook.filePath).2 hook.getContent) ++ post)
    ∧ (∀ pre matched g1 g2 post,
        findMarkerSplit (getCommentStyle hook.filePath).1 code
            = some (pre, matched, g1, g2, post) →
        '$' ∉ injectionBlock (getCommentStyle hook.filePath).1
            (getCommentStyle hook.filePath).2 hook.getContent →
        spliceFirst (getCommentStyle hook.filePath).1
          (injectionBlock (getCommentStyle hook.filePath).1
            (getCommentStyle hook.filePath).2 hook.getContent) code
          = pre ++ injectionBlock (getCommentStyle hook.filePath).1
              (getCommentStyle hook.filePath).2 hook.getContent ++ post) := by
  refine ⟨load001_eq cwd fs reg id k hook code hid hfind hfs, ?_, ?_, ?_, ?_⟩
  · unfold injectionBlock startComment endComment
    simp [List.append_assoc]
  · intro hnone
    unfold spliceFirst
    rw [hnone]
  · intro pre matched g1 g2 post hsome
    unfold spliceFirst
    rw [hsome]
  · intro pre matched g1 g2 post hsome hnod
    unfold spliceFirst
    rw [hsome]
    show pre ++ getSubstitution matched pre post [g1, g2]
        (injectionBlock (getCommentStyle hook.filePath).1
          (getCommentStyle hook.filePath).2 hook.getContent) ++ post
      = pre ++ injectionBlock (getCommentStyle hook.filePath).1
          (getCommentStyle hook.filePath).2 hook.getContent ++ post
    rw [getSubstitution_no_dollar _ _ _ _ _ hnod]

set_option maxRecDepth 8192 in
/-- Witness for the amended C5 on a concrete two-marker file with
dollar-free content: the first marker line is replaced by the literal block
and the second marker line survives verbatim. -/
theorem claim_C5_witness :
    Part001.load ( "/w".toList) c5Fs c5Reg ( "@injectionhooks_ts:x".toList)
      = .ok (some c5Expected) := by
  have h := claim_C5_load_splices_first ( "/w".toList) c5Fs c5Reg
    ( "@injectionhooks_ts:x".toList) ( "@injectionhooks_ts:x".toList) c5Hook c5File
    (by decide) rfl rfl
  rw [h.1]
  have hx : Part001.rewriteImports ( "/w".toList) c5Hook.filePath
      (spliceFirst (getCommentStyle c5Hook.filePath).1
        (injectionBlock (getCommentStyle c5Hook.filePath).1
          (getCommentStyle c5Hook.filePath).2 c5Hook.getContent) c5File)
      = c5Expected := by decide
  rw [hx]

/-- Normalizing an absolute path yields a `/`-leading string. -/
theorem pathNormalize_abs_cons {src : Str} (h : pathIsAbsolute src = true) :
    ∃ l, pathNormalize src = '/' :: l := by
  have hne : src ≠ [] := by
    intro he
    rw [he] at h
    simp [pathIsAbsolute] at h
  simp only [pathNormalize]
  rw [if_neg hne]
  simp only [h, Bool.not_true, if_true]
  by_cases hbody : joinSegs (normSegs false (splitSlash src)) = []
  · exact ⟨[], by rw [if_pos hbody]⟩
  · exact ⟨joinSegs (normSegs false (splitSlash src))
      ++ (if (src.getLast? == some '/') = true then ['/'] else []), by
        rw [if_neg hbody, List.cons_append]⟩

/-- Normalizing and slashifying keeps absolute paths absolute. -/
theorem pathNormalize_abs {src : Str} (h : pathIsAbsolute src = true) :
    pathIsAbsolute (slashify (pathNormalize src)) = true := by
  obtain ⟨l, hl⟩ := pathNormalize_abs_cons h
  rw [hl]
  simp [slashify, pathIsAbsolute]

/-- Every segment produced by splitting on the separator is free of the
separator. -/
theorem splitSlash_no_slash (t : Str) : ∀ s ∈ splitSlash t, '/' ∉ s := by
  induction t with
  | nil =>
    intro s hs
    have hs2 : s ∈ ([[]] : List Str) := hs
    rw [List.mem_singleton] at hs2
    subst hs2
    simp
  | cons c r ih =>
    intro s hs
    unfold splitSlash at hs
    by_cases hc : c = '/'
    · rw [if_pos hc] at hs
      rcases List.mem_cons.mp hs with h | h
      · subst h; simp
      · exact ih s h
    · rw [if_neg hc] at hs
      cases hsp : splitSlash r with
      | nil =>
        rw [hsp] at hs
        have hs2 : s ∈ ([[c]] : List Str) := hs
        rw [List.mem_singleton] at hs2
        subst hs2
        intro hmem
        rw [List.mem_singleton] at hmem
        exact hc hmem.symm
      | cons x rest =>
        rw [hsp] at hs
        have hs2 : s ∈ (c :: x) :: rest := hs
        rcases List.mem_cons.mp hs2 with h | h
        · subst h
          intro hmem
          rcases List.mem_cons.mp hmem with h2 | h2
          · exact hc h2.symm
          · exact ih x (by rw [hsp]; exact List.mem_cons_self x rest) h2
        · exact ih s (by rw [hsp]; exact List.mem_cons_of_mem x h)

/-- The normalization stack only ever holds nonempty separator-free
segments when fed separator-free segments. -/
theorem normSegs_aux (allow : Bool) : ∀ (segs acc : List Str),
    (∀ s ∈ segs, '/' ∉ s) → (∀ s ∈ acc, s ≠ [] ∧ '/' ∉ s) →
    ∀ s ∈ List.foldl (normStep allow) acc segs, s ≠ [] ∧ '/' ∉ s := by
  intro segs
  induction segs with
  | nil =>
    intro acc _ hacc
    simpa only [List.foldl_nil] using hacc
  | cons sg rest ih =>
    intro acc hsegs hacc
    rw [List.foldl_cons]
    refine ih (normStep allow acc sg)
      (fun s hs => hsegs s (List.mem_cons_of_mem _ hs)) ?_
    intro s hs
    unfold normStep at hs
    by_cases h1 : sg = [] ∨ sg = ['.']
    · rw [if_pos h1] at hs
      exact hacc s hs
    · rw [if_neg h1] at hs
      by_cases h2 : sg = ['.', '.']
      · rw [if_pos h2] at hs
        by_cases h3 : acc ≠ [] ∧ acc.getLast? ≠ some ['.', '.']
        · rw [if_pos h3] at hs
          exact hacc s ((List.dropLast_sublist acc).subset hs)
        · rw [if_neg h3] at hs
          by_cases h4 : allow = true
          · rw [if_pos h4] at hs
            rcases List.mem_append.mp hs with h | h
            · exact hacc s h
            · rw [List.mem_singleton] at h
              rw [h, h2]
              exact ⟨by decide, by decide⟩
          · rw [if_neg h4] at hs
            exact hacc s hs
      · rw [if_neg h2] at hs
        rcases List.mem_append.mp hs with h | h
        · exact hacc s h
        · rw [List.mem_singleton] at h
          rw [h]
          exact ⟨fun he => h1 (Or.inl he), hsegs sg (List.mem_cons_self sg rest)⟩

/-- Joining nonempty separator-free segments never yields a `/`-leading
string. -/
theorem joinSegs_head_ne_slash (segs : List Str)
    (hsegs : ∀ s ∈ segs, s ≠ [] ∧ '/' ∉ s) (hne : joinSegs segs ≠ []) :
    (joinSegs segs).head? ≠ some '/' := by
  cases segs with
  | nil => exact absurd rfl hne
  | cons s0 rest =>
    obtain ⟨h0ne, h0s⟩ := hsegs s0 (List.mem_cons_self s0 rest)
    obtain ⟨c, s0', rfl⟩ : ∃ c s0', s0 = c :: s0' := by
      cases s0 with
      | nil => exact absurd rfl h0ne
      | cons c s0' => exact ⟨c, s0', rfl⟩
    have hc : c ≠ '/' := fun h => h0s (by rw [← h]; exact List.mem_cons_self c s0')
    cases rest with
    | nil =>
      have hj : joinSegs [c :: s0'] = c :: (s0' ++ []) := rfl
      rw [hj]
      intro h
      rw [List.head?_cons, Option.some.injEq] at h
      exact hc h
    | cons s1 r2 =>
      have hj : joinSegs ((c :: s0') :: s1 :: r2)
          = c :: (s0' ++ '/' :: (List.intersperse (['/'] : Str) (s1 :: r2)).flatten) :=
        rfl
      rw [hj]
      intro h
      rw [List.head?_cons, Option.some.injEq] at h
      exact hc h

/-- Normalizing a nonempty non-absolute path never yields a `/`-leading
string. -/
theorem pathNormalize_not_abs {t : Str} (hne : t ≠ [])
    (habs : pathIsAbsolute t = false) :
    (pathNormalize t).head? ≠ some '/' := by
  unfold pathNormalize
  rw [if_neg hne]
  simp only [habs, Bool.false_eq_true, if_false, Bool.not_false, if_true]
  by_cases hbody : joinSegs (normSegs true (splitSlash t)) = []
  · rw [if_pos hbody]
    split <;> decide
  · rw [if_neg hbody]
    obtain ⟨c, bt, hb⟩ : ∃ c bt, joinSegs (normSegs true (splitSlash t)) = c :: bt := by
      cases hbb : joinSegs (normSegs true (splitSlash t)) with
      | nil => exact absurd hbb hbody
      | cons c bt => exact ⟨c, bt, rfl⟩
    rw [hb, List.cons_append]
    intro h
    rw [List.head?_cons, Option.some.injEq] at h
    have hseg : ∀ s ∈ normSegs true (splitSlash t), s ≠ [] ∧ '/' ∉ s :=
      normSegs_aux true (splitSlash t) [] (splitSlash_no_slash t)
        (fun s hs => absurd hs (List.not_mem_nil s))
    have hjoin := joinSegs_head_ne_slash (normSegs true (splitSlash t)) hseg hbody
    rw [hb, List.head?_cons] at hjoin
    exact hjoin (by rw [h])

/-- A string passing the virtual-prefix regex is nonempty and not
absolute: its first significant character is `@` (or whitespace before
it), never `/`. -/
theorem injectionHooksTest_not_abs {imp : Str}
    (h : injectionHooksTest imp = true) :
    imp ≠ [] ∧ pathIsAbsolute imp = false := by
  constructor
  · intro he
    rw [he] at h
    exact absurd h (by decide)
  · by_contra habs
    rw [Bool.not_eq_false] at habs
    obtain ⟨t, rfl⟩ : ∃ t, imp = '/' :: t := by
      cases imp with
      | nil => exact absurd habs (by decide)
      | cons c t =>
        refine ⟨t, ?_⟩
        have h2 : (some c == some '/') = true := habs
        have h3 : c = '/' := by simpa using h2
        rw [h3]
    have hdw : dropWS ('/' :: t) = '/' :: t := by
      rw [dropWS, List.dropWhile_cons, if_neg (by decide)]
    unfold injectionHooksTest at h
    rw [hdw] at h
    have h4 : stripPrefCI ( "@injectionhooks_ts:".toList) ('/' :: t) = none := by
      have h5 : ( "@injectionhooks_ts:".toList)
          = '@' :: ( "injectionhooks_ts:".toList) := rfl
      rw [h5]
      show (if ('@'.toLower = '/'.toLower) then
          stripPrefCI ( "injectionhooks_ts:".toList) t else none) = none
      rw [if_neg (by decide)]
    rw [h4] at h
    exact absurd h (by decide)

/-- The fuller `GEN_ID` always returns a `/`-leading string, in every
mode: the buggy ternary condition is a nonempty string in all cases, so
the forward-slashed absolute resolved path is always returned. -/
theorem GEN_ID001_cons (cwd f : Str) (m : Part001.JSFlag) :
    ∃ l, Part001.GEN_ID cwd f m = '/' :: l := by
  have hcond : ((if m = Part001.JSFlag.bool true then Part001.VIRTUAL_ID_MARK else [])
      ++ (if m = Part001.JSFlag.num 1 then ( "true".toList)
          else ( "false".toList))) ≠ [] := by
    split <;> split <;> decide
  simp only [Part001.GEN_ID]
  rw [if_pos hcond]
  exact ⟨_, rfl⟩

/-- The importer back-resolution of the fuller `resolveId` is the
identity: every generated id is `/`-leading while a virtual importer,
which alone enters the lookup, normalizes to a string that is not
`/`-leading, so the registry scan never finds a match. -/
theorem effImporter_id (cwd : Str) (reg : HookReg) (importer : Option Str) :
    Part001.effImporter cwd reg importer = importer := by
  cases importer with
  | none => rfl
  | some imp =>
    show (if injectionHooksTest imp then
        match (reg.map Prod.snd).find? (fun h =>
            pathNormalize (Part001.GEN_ID cwd h.filePath (Part001.JSFlag.bool true))
              == pathNormalize imp) with
        | some hookMatch => some hookMatch.filePath
        | none => some imp
      else some imp) = some imp
    by_cases ht : injectionHooksTest imp = true
    · rw [if_pos ht]
      have hfind : (reg.map Prod.snd).find? (fun h =>
          pathNormalize (Part001.GEN_ID cwd h.filePath (Part001.JSFlag.bool true))
            == pathNormalize imp) = none := by
        rw [List.find?_eq_none]
        intro h _hmem
        rw [Bool.not_eq_true, beq_eq_false_iff_ne]
        intro heq
        obtain ⟨l, hl⟩ := GEN_ID001_cons cwd h.filePath (Part001.JSFlag.bool true)
        obtain ⟨l2, hl2⟩ := @pathNormalize_abs_cons ('/' :: l) (by simp [pathIsAbsolute])
        obtain ⟨hne, habs⟩ := injectionHooksTest_not_abs ht
        have h2 : (pathNormalize imp).head? ≠ some '/' :=
          pathNormalize_not_abs hne habs
        rw [hl, hl2] at heq
        rw [← heq] at h2
        exact h2 rfl
      rw [hfind]
    · rw [if_neg ht]

/-- Case-insensitive stripping of a literal prefix from itself followed by
anything succeeds with the remainder. -/
theorem stripPrefCI_append_self (pat r : Str) :
    stripPrefCI pat (pat ++ r) = some r := by
  induction pat with
  | nil => simp only [stripPrefCI, List.nil_append]
  | cons a ps ih =>
    have h : stripPrefCI (a :: ps) (a :: (ps ++ r))
        = if a.toLower = a.toLower then stripPrefCI ps (ps ++ r) else none := rfl
    rw [List.cons_append, h, if_pos rfl, ih]

/-- `@use` never case-insensitively prefixes an `@import`-led string. -/
theorem stripPrefCI_use_import (r : Str) :
    stripPrefCI ( "@use".toList) (( "@import".toList) ++ r) = none := by
  have h1 : stripPrefCI ( "@use".toList) (( "@import".toList) ++ r)
      = if ('@'.toLower = '@'.toLower) then
          stripPrefCI ( "use".toList) (( "mport".toList) ++ ('t' :: r)) else none := by
    rfl
  rw [h1, if_pos rfl]
  have h2 : stripPrefCI ( "use".toList) (( "mport".toList) ++ ('t' :: r))
      = if ('u'.toLower = 'm'.toLower) then
          stripPrefCI ( "se".toList) (( "port".toList) ++ ('t' :: r)) else none := by
    rfl
  rw [h2, if_neg (by decide)]

/-- `takeWhile` runs through a leading block of satisfying characters. -/
theorem takeWhile_append_all {p : Char → Bool} (a b : Str)
    (ha : ∀ x ∈ a, p x = true) :
    (a ++ b).takeWhile p = a ++ b.takeWhile p := by
  induction a with
  | nil => rfl
  | cons c t ih =>
    rw [List.cons_append, List.takeWhile_cons_of_pos (ha c (List.mem_cons_self c t)),
      ih (fun x hx => ha x (List.mem_cons_of_mem c hx)), List.cons_append]

/-- A list `startsWith` itself followed by anything. -/
theorem isPrefixOf_self_append (l r : Str) : l.isPrefixOf (l ++ r) = true := by
  induction l with
  | nil => simp [List.isPrefixOf]
  | cons a t ih =>
    have h : (a :: t).isPrefixOf ((a :: t) ++ r)
        = ((a == a) && t.isPrefixOf (t ++ r)) := rfl
    rw [h, ih, beq_self_eq_true]
    decide

/-- `@use` is not a case-sensitive prefix of an `@import`-led string. -/
theorem use_not_prefixOf_import (r : Str) :
    ( "@use".toList).isPrefixOf (( "@import".toList) ++ r) = false := by
  have h1 : ( "@use".toList).isPrefixOf (( "@import".toList) ++ r)
      = (('@' == '@') && (('u' == 'i')
          && ( "se".toList).isPrefixOf (( "mport".toList) ++ r))) := rfl
  rw [h1, show (('u' : Char) == 'i') = false from by decide, Bool.false_and,
    Bool.and_false]

/-- Generic evaluation of one `RELATIVE_IMPORT_REGEX` attempt on a text
that starts with a complete relative import statement: the keyword test
result, the keyword length, the `(\.\.?\/)` head and its length are taken
as hypotheses; the match consumes exactly the statement and captures the
quote and the dotted path. -/
theorem tryImportMatch_eval (kw ws dots p2 rest : Str) (q : Char) (n dlen : Nat)
    (hkwn : (if (stripPrefCI ( "@use".toList)
          (kw ++ (ws ++ (q :: ((dots ++ p2) ++ (q :: rest)))))).isSome then some 4
        else if (stripPrefCI ( "@import".toList)
          (kw ++ (ws ++ (q :: ((dots ++ p2) ++ (q :: rest)))))).isSome then some 7
        else none) = some n)
    (hlenkw : kw.length = n)
    (hws0 : ws ≠ []) (hws : ∀ c ∈ ws, isWS c = true)
    (hq : q = '"' ∨ q = squote)
    (hrel : relPathHead ((dots ++ p2) ++ (q :: rest)) = some dlen)
    (hdlen : dots.length = dlen)
    (hpc : ∀ c ∈ p2, ¬c = q ∧ ¬c = '\n') :
    tryImportMatch (kw ++ (ws ++ (q :: ((dots ++ p2) ++ (q :: rest)))))
      = some (kw ++ (ws ++ (q :: ((dots ++ p2) ++ [q]))), q, dots ++ p2, rest) := by
  have hqws : isWS q = false := by rcases hq with rfl | rfl <;> decide
  have hmidall : ∀ c ∈ p2, ((c != q) && (c != '\n')) = true := by
    intro c hc
    obtain ⟨h1, h2⟩ := hpc c hc
    simp [h1, h2]
  have hinner : (dots ++ p2) ++ (q :: rest) = dots ++ (p2 ++ (q :: rest)) :=
    List.append_assoc dots p2 (q :: rest)
  have eWs : (ws ++ (q :: ((dots ++ p2) ++ (q :: rest)))).takeWhile isWS = ws := by
    rw [takeWhile_append_all ws _ hws,
      List.takeWhile_cons_of_neg (by simp [hqws]), List.append_nil]
  have eDropWs : (ws ++ (q :: ((dots ++ p2) ++ (q :: rest)))).drop ws.length
      = q :: ((dots ++ p2) ++ (q :: rest)) := List.drop_left ws _
  have eMid : ((p2 ++ (q :: rest)).takeWhile (fun c => c != q && c != '\n')) = p2 := by
    rw [takeWhile_append_all p2 _ hmidall,
      List.takeWhile_cons_of_neg (by simp), List.append_nil]
  have eDropMid : ((p2 ++ (q :: rest)).drop p2.length) = q :: rest :=
    List.drop_left p2 _
  have eTake : ((dots ++ p2) ++ (q :: rest)).take dlen = dots := by
    rw [hinner]; exact List.take_left' hdlen
  have eDrop2 : ((dots ++ p2) ++ (q :: rest)).drop dlen = p2 ++ (q :: rest) := by
    rw [hinner]; exact List.drop_left' hdlen
  have eS : kw ++ (ws ++ (q :: ((dots ++ p2) ++ (q :: rest))))
      = (kw ++ (ws ++ (q :: ((dots ++ p2) ++ [q])))) ++ rest := by
    simp [List.append_assoc]
  have eConsume : (kw ++ (ws ++ (q :: ((dots ++ p2) ++ [q])))).length
      = n + ws.length + 1 + dlen + p2.length + 1 := by
    simp only [List.length_append, List.length_cons, List.length_nil,
      ← hlenkw, ← hdlen]
    omega
  have eTakeS : (kw ++ (ws ++ (q :: ((dots ++ p2) ++ (q :: rest))))).take
        (n + ws.length + 1 + dlen + p2.length + 1)
      = kw ++ (ws ++ (q :: ((dots ++ p2) ++ [q]))) := by
    rw [eS]; exact List.take_left' eConsume
  simp only [tryImportMatch, hkwn]
  rw [List.drop_left' hlenkw, eWs, if_neg hws0]
  simp only [eDropWs]
  rw [if_pos hq]
  simp only [hrel]
  rw [eDrop2, eMid]
  simp only [eDropMid]
  rw [if_true, eTakeS, eTake]

/-- **C3** (counterexample): with the registered hook's real SCSS file
containing `@use "./a.scss"` (double quotes), `load` returns the statement
rewritten with single quotes around the bare absolute path — not, as the
claim states, with the original quote style preserved and the path replaced
by the prefixed-absolute virtual identifier (modelled from the spec as the
case-insensitive prefix followed by the absolute path). -/
theorem claim_C3_counterexample :
    Part001.load ( "/w".toList) (c3Fs ( "@use".toList) '"') c3Reg
        ( "@injectionhooks_ts:x".toList)
      = .ok (some (c3Expected ( "@use".toList)))
    ∧ c3Expected ( "@use".toList)
      ≠ ( "@use".toList) ++ ' ' :: '"' :: (Part001.VIRTUAL_ID_MARK
           ++ ( "/p/a.scss".toList)) ++ '"' :: '\n' :: ( "@use".toList)
           ++ ' ' :: squote :: ( "./@x/y".toList) ++ [squote] := by
  constructor
  · exact (load001_eq ( "/w".toList) (c3Fs ( "@use".toList) '"') c3Reg
      ( "@injectionhooks_ts:x".toList) ( "@injectionhooks_ts:x".toList) c3Hook
      (c3File ( "@use".toList) '"') (by decide) rfl rfl).trans
      (congrArg (fun x => Except.ok (some x)) (by decide))
  · decide

/-- **C3 (amended)**: universally over every relative `@use`/`@import`
statement — either keyword, any nonempty whitespace run, either quote
character, and any `./`- or `../`-prefixed path free of the quote and of
newlines — the relative-import rewrite scan that `load` applies to the
spliced code (1) matches exactly the statement, capturing the quote and
the dotted path; (2) when the path resolves against the hook's real file,
replaces the statement by the keyword chosen by the case-sensitive
`startsWith('@use')` test (preserving lowercase-written keywords), a
space, and the mode-1 identifier wrapped in single quotes regardless of
the original quote style, and leaves the statement unchanged when the
path fails to resolve, continuing with the remainder either way; (3) the
mode-1 identifier never carries the virtual prefix; and (4) text that
begins no statement passes through one character at a time. -/
theorem claim_C3_amended (cwd f ws dots p2 rest kw : Str) (q : Char) (n : Nat)
    (hkw : kw = ( "@use".toList) ∨ kw = ( "@import".toList))
    (hws0 : ws ≠ []) (hws : ∀ c ∈ ws, isWS c = true)
    (hq : q = '"' ∨ q = squote)
    (hdots : dots = ( "./".toList) ∨ dots = ( "../".toList))
    (hpc : ∀ c ∈ p2, ¬c = q ∧ ¬c = '\n') :
    tryImportMatch (kw ++ (ws ++ (q :: ((dots ++ p2) ++ (q :: rest)))))
      = some (kw ++ (ws ++ (q :: ((dots ++ p2) ++ [q]))), q, dots ++ p2, rest)
    ∧ Part001.rewriteGo cwd f (n + 1)
        (kw ++ (ws ++ (q :: ((dots ++ p2) ++ (q :: rest)))))
      = (match Part001.fasterSimpleResolveAbsolutePath cwd (dots ++ p2) (some f) with
         | .path abs =>
           kw ++ (' ' :: squote :: Part001.GEN_ID cwd abs (Part001.JSFlag.num 1))
             ++ [squote]
         | _ => kw ++ (ws ++ (q :: ((dots ++ p2) ++ [q]))))
        ++ Part001.rewriteGo cwd f n rest
    ∧ (∀ abs, Part001.VIRTUAL_ID_MARK.isPrefixOf
          (Part001.GEN_ID cwd abs (Part001.JSFlag.num 1)) = false)
    ∧ (∀ c t, tryImportMatch (c :: t) = none →
        Part001.rewriteGo cwd f (n + 1) (c :: t)
          = c :: Part001.rewriteGo cwd f n t) := by
  have hmatch : tryImportMatch (kw ++ (ws ++ (q :: ((dots ++ p2) ++ (q :: rest)))))
      = some (kw ++ (ws ++ (q :: ((dots ++ p2) ++ [q]))), q, dots ++ p2, rest) := by
    rcases hkw with rfl | rfl <;> rcases hdots with rfl | rfl
    · exact tryImportMatch_eval _ ws _ p2 rest q 4 2
        (by rw [stripPrefCI_append_self]; rfl) rfl hws0 hws hq rfl rfl hpc
    · exact tryImportMatch_eval _ ws _ p2 rest q 4 3
        (by rw [stripPrefCI_append_self]; rfl) rfl hws0 hws hq rfl rfl hpc
    · exact tryImportMatch_eval _ ws _ p2 rest q 7 2
        (by rw [stripPrefCI_use_import, stripPrefCI_append_self]; rfl) rfl
        hws0 hws hq rfl rfl hpc
    · exact tryImportMatch_eval _ ws _ p2 rest q 7 3
        (by rw [stripPrefCI_use_import, stripPrefCI_append_self]; rfl) rfl
        hws0 hws hq rfl rfl hpc
  refine ⟨hmatch, ?_, ?_, ?_⟩
  · rcases hkw with rfl | rfl
    · have hcons : ( "@use".toList) ++ (ws ++ (q :: ((dots ++ p2) ++ (q :: rest))))
          = '@' :: (( "use".toList)
              ++ (ws ++ (q :: ((dots ++ p2) ++ (q :: rest))))) := rfl
      rw [hcons] at hmatch ⊢
      simp only [Part001.rewriteGo, hmatch]
      cases hres : Part001.fasterSimpleResolveAbsolutePath cwd (dots ++ p2)
          (some f) with
      | path abs => simp
      | neg1 => rfl
      | neg2 => rfl
      | neg3 => rfl
      | neg4 => rfl
    · have hcons : ( "@import".toList) ++ (ws ++ (q :: ((dots ++ p2) ++ (q :: rest))))
          = '@' :: (( "import".toList)
              ++ (ws ++ (q :: ((dots ++ p2) ++ (q :: rest))))) := rfl
      rw [hcons] at hmatch ⊢
      simp only [Part001.rewriteGo, hmatch]
      cases hres : Part001.fasterSimpleResolveAbsolutePath cwd (dots ++ p2)
          (some f) with
      | path abs => simp
      | neg1 => rfl
      | neg2 => rfl
      | neg3 => rfl
      | neg4 => rfl
  · intro abs
    obtain ⟨l, hl⟩ := GEN_ID001_cons cwd abs (Part001.JSFlag.num 1)
    rw [hl]
    have h1 : Part001.VIRTUAL_ID_MARK.isPrefixOf ('/' :: l)
        = (('@' == '/') && ( "injectionhooks_ts:".toList).isPrefixOf l) := rfl
    rw [h1, show (('@' : Char) == '/') = false from by decide, Bool.false_and]
  · intro c t hnone
    simp only [Part001.rewriteGo, hnone]

/-- Witness for the amended C3 at `@use`, one space, double quotes, path
`./a.scss`: the statement is matched whole and rewritten to the bare
absolute path in single quotes. -/
theorem claim_C3_amended_witness :
    tryImportMatch ( "@use \x22./a.scss\x22".toList)
      = some (( "@use \x22./a.scss\x22".toList), '"', ( "./a.scss".toList), ([] : Str))
    ∧ Part001.rewriteGo ( "/w".toList) ( "/p/f.scss".toList) 1
        ( "@use \x22./a.scss\x22".toList)
      = ( "@use".toList) ++ (' ' :: squote :: ( "/p/a.scss".toList)) ++ [squote] := by
  have h := claim_C3_amended ( "/w".toList) ( "/p/f.scss".toList) [ ' ']
    ( "./".toList) ( "a.scss".toList) [] ( "@use".toList) '"' 0 (Or.inl rfl)
    (by decide) (by decide) (Or.inl rfl) (Or.inl rfl) (by decide)
  exact ⟨h.1, h.2.1⟩

set_option maxRecDepth 8192 in
/-- **C8** (counterexample): on the same registry record and the same
inputs both engines resolve the module, but the returned ids differ — the
simpler engine emits the prefixed normalized file path, the canonical one
the bare absolute path — so the simpler engine's non-null results are not
reproduced verbatim by the canonical engine; and on the same registered id
and file snapshot the two `load`s also return different strings, the
canonical one rewriting the relative imports the simpler one leaves
untouched. -/
theorem claim_C8_counterexample :
    (Part000.resolveId ( "/w".toList) aReg ( "/p/a.scss".toList) none
        = some (( "@InjectionHooks_ts:/p/a.scss".toList), ( "scss".toList))
      ∧ Part001.resolveId ( "/w".toList) aReg ( "/p/a.scss".toList) none
        = some (( "/p/a.scss".toList), ( "scss".toList))
      ∧ (( "@InjectionHooks_ts:/p/a.scss".toList) : Str) ≠ ( "/p/a.scss".toList))
    ∧ (Part000.load (c3Fs ( "@use".toList) '"') c3Reg
          ( "@injectionhooks_ts:x".toList)
        = .ok (some (c3File ( "@use".toList) '"'))
      ∧ Part001.load ( "/w".toList) (c3Fs ( "@use".toList) '"') c3Reg
          ( "@injectionhooks_ts:x".toList)
        = .ok (some (c3Expected ( "@use".toList)))
      ∧ c3File ( "@use".toList) '"' ≠ c3Expected ( "@use".toList)) := by
  refine ⟨⟨rfl, rfl, by decide⟩, ⟨rfl, ?_, by decide⟩⟩
  exact (load001_eq ( "/w".toList) (c3Fs ( "@use".toList) '"') c3Reg
    ( "@injectionhooks_ts:x".toList) ( "@injectionhooks_ts:x".toList) c3Hook
    (c3File ( "@use".toList) '"') (by decide) rfl rfl).trans
    (congrArg (fun x => Except.ok (some x)) (by decide))


/-- Where the simpler resolver succeeds on a specifier that is absolute or
relative-looking, the fuller resolver returns the same path. -/
theorem resolveA_path_to_B (cwd src : Str) (imp : Option Str) (p : Str)
    (hsrc : pathIsAbsolute src = true ∨ relStartTest src = true)
    (hA : Part000.fasterSimpleResolveAbsolutePath cwd src imp = some p) :
    Part001.fasterSimpleResolveAbsolutePath cwd src imp = .path p := by
  simp only [Part000.fasterSimpleResolveAbsolutePath] at hA
  simp only [Part001.fasterSimpleResolveAbsolutePath]
  by_cases h1 : pathIsAbsolute (slashify (pathNormalize src)) = true
  · rw [if_pos h1] at hA ⊢
    rw [Option.some_inj] at hA
    rw [hA]
  · have hrel : relStartTest src = true := by
      rcases hsrc with habs | hr
      · exact absurd (pathNormalize_abs habs) h1
      · exact hr
    rw [if_neg h1] at hA ⊢
    by_cases h2 : colonSchemeTest (slashify (pathNormalize src)) = true
    · rw [if_pos h2] at hA; cases hA
    · rw [if_neg h2] at hA ⊢
      by_cases h3 : (("@".toList).isPrefixOf (slashify (pathNormalize src))
          && !(("./".toList).isPrefixOf (slashify (pathNormalize src)))
          && !(("../".toList).isPrefixOf (slashify (pathNormalize src)))) = true
      · rw [if_pos h3] at hA; cases hA
      · rw [if_neg h3] at hA ⊢
        rw [if_neg (by simp [hrel])]
        by_cases h4 : (!((".".toList).isPrefixOf (slashify (pathNormalize src)))
            && !(pathIsAbsolute (slashify (pathNormalize src))) && imp.isSome) = true
        · rw [if_pos h4] at hA; cases hA
        · rw [if_neg h4] at hA
          cases imp with
          | none => exact Option.noConfusion hA
          | some i =>
            have hA2 : (if (("./".toList).isPrefixOf (slashify (pathNormalize src))
                  || ("../".toList).isPrefixOf (slashify (pathNormalize src))
                  || ("file://".toList).isPrefixOf (slashify (pathNormalize src))) = true
                then some (slashify (pathNormalize
                  (pathResolve cwd (pathDirname i) (slashify (pathNormalize src)))))
                else none) = some p := hA
            show (if (relStartTest src || relStartTest (slashify (pathNormalize src))) = true
                then Part001.ResOutcome.path (slashify (pathNormalize
                  (pathResolve cwd (pathDirname i) (slashify (pathNormalize src)))))
                else Part001.ResOutcome.neg4) = Part001.ResOutcome.path p
            rw [if_pos (by simp [hrel])]
            by_cases h5 : (("./".toList).isPrefixOf (slashify (pathNormalize src))
                || ("../".toList).isPrefixOf (slashify (pathNormalize src))
                || ("file://".toList).isPrefixOf (slashify (pathNormalize src))) = true
            · rw [if_pos h5] at hA2
              rw [Option.some_inj] at hA2
              rw [hA2]
            · rw [if_neg h5] at hA2
              exact Option.noConfusion hA2

/-- **C8 (amended)**: for specifiers whose normalized form is absolute or
relative-looking and for every importer, whenever the simpler engine's
`resolveId` returns non-null, the canonical engine's `resolveId` returns
non-null too, driven by the same resolved path and the same first matching
hook; the ids differ exactly as the two `GEN_ID`s differ (the prefixed
normalized file path versus the unprefixed absolute path) while the loader
metadata coincides.  And every id the simpler `load` serves at all, the
canonical `load` serves as the simpler output passed additionally through
relative-import rewriting — a refinement in shape, not a verbatim
subset. -/
theorem claim_C8_amended (cwd : Str) (reg : HookReg) (source : Str)
    (importer : Option Str) (idA ext : Str)
    (hsrc : pathIsAbsolute (slashify (pathNormalize source)) = true
      ∨ relStartTest (slashify (pathNormalize source)) = true)
    (hA : Part000.resolveId cwd reg source importer = some (idA, ext)) :
    (∃ p k hook,
        reg.find? (fun e => isMatchHook e.2 p) = some (k, hook)
        ∧ idA = Part000.GEN_ID hook.filePath
        ∧ Part001.resolveId cwd reg source importer
            = some (Part001.GEN_ID cwd hook.filePath (Part001.JSFlag.bool true), ext))
    ∧ (∀ fs id s k hook,
        reg.find? (fun e => e.1 == id) = some (k, hook) →
        Part000.load fs reg id = .ok (some s) →
        Part001.load cwd fs reg id
          = .ok (some (Part001.rewriteImports cwd hook.filePath s))) := by
  constructor
  · unfold Part000.resolveId at hA
    split at hA
    · rename_i p hres
      split at hA
      · rename_i k hook hfind
        have h2 := Option.some.inj hA
        have hidA : idA = Part000.GEN_ID hook.filePath := (congrArg Prod.fst h2).symm
        have hext : ext = extLoader p := (congrArg Prod.snd h2).symm
        refine ⟨p, k, hook, hfind, hidA, ?_⟩
        have heff : Part001.effImporter cwd reg importer = importer :=
          effImporter_id cwd reg importer
        have hBres := resolveA_path_to_B cwd (slashify (pathNormalize source))
          importer p hsrc hres
        unfold Part001.resolveId
        rw [heff]
        simp only [hBres, hfind]
        rw [hext]
      · exact absurd hA (by simp)
    · exact Option.noConfusion hA
  · intro fs id s k hook hfind hloadA
    unfold Part000.load at hloadA
    by_cases hid : injectionHooksTest id = true
    · rw [if_pos hid, hfind] at hloadA
      cases hfs : fs hook.filePath with
      | none =>
        simp only [hfs] at hloadA
        exact Except.noConfusion hloadA
      | some code =>
        simp only [hfs, Except.ok.injEq, Option.some.injEq] at hloadA
        rw [load001_eq cwd fs reg id k hook code hid hfind hfs, ← hloadA]
    · rw [if_neg hid] at hloadA
      exact absurd hloadA (by simp)

/-- Witness for the amended C8: an absolute specifier against a concrete
one-hook registry, no importer. -/
theorem claim_C8_amended_witness :
    (∃ p k hook,
        aReg.find? (fun e => isMatchHook e.2 p) = some (k, hook)
        ∧ ( "@InjectionHooks_ts:/p/a.scss".toList) = Part000.GEN_ID hook.filePath
        ∧ Part001.resolveId ( "/w".toList) aReg ( "/p/a.scss".toList) none
            = some (Part001.GEN_ID ( "/w".toList) hook.filePath
                (Part001.JSFlag.bool true), ( "scss".toList)))
    ∧ (∀ fs id s k hook,
        aReg.find? (fun e => e.1 == id) = some (k, hook) →
        Part000.load fs aReg id = .ok (some s) →
        Part001.load ( "/w".toList) fs aReg id
          = .ok (some (Part001.rewriteImports ( "/w".toList) hook.filePath s))) :=
  claim_C8_amended ( "/w".toList) aReg ( "/p/a.scss".toList) none
    ( "@InjectionHooks_ts:/p/a.scss".toList) ( "scss".toList)
    (by decide) rfl

end Plugin


